import Mathlib

/-!
Verification development for the platter-walk library (src/lib.rs): a
physical-layout-aware filesystem traversal iterator (`ToScan`) with an
adaptive read-ahead prefetcher.

The Rust source is shallowly embedded:
* `BTreeMap<u64, Entry>` becomes a key-sorted association list
  (`List (Nat × Entry)`), operations mirroring `insert`/`range`/`remove`;
* `VecDeque<Entry>` becomes `List Entry` (`pop_front` = head,
  `push_back` = append);
* `HashMap<PathBuf, u64>` becomes an association list `List (Path × Nat)`
  (all uses are order-independent: sum, len, contains, remove, insert);
* `Vec::sort_by_key` (a stable sort) becomes the stable insertion sort
  `sortByKey`;
* machine `u64` values are `Nat`s; `u64::MAX` appears explicitly where the
  source mentions it (`U64MAX`), and `saturating_sub` is `Nat` subtraction;
* the external world (directory enumeration, extent-map ioctl, stat,
  opening block devices) is an oracle structure `FS`;
* the iterator's `next` is decomposed into single iterations of its
  `while` loop (`loopStep`); `nextImpl` iterates `loopStep` until a yield
  (fuel-indexed), `runScan` collects a whole run's output stream.
-/

namespace PlatterWalk

deriving instance DecidableEq for Except

/-- `u64::MAX`. -/
def U64MAX : Nat := 18446744073709551615

/-- I/O errors are opaque; we track only an error code. -/
abbrev IoErr := Nat

/-- Paths as component lists (`PathBuf`); `Path::starts_with` is
component-wise prefix. -/
abbrev FsPath := List String

/-- `std::fs::FileType`: the source only ever queries `is_dir`. -/
structure FileType where
  is_dir : Bool
deriving DecidableEq, Repr

/-- `btrfs::FileExtent`: the source reads the fields `physical` and
`length`. -/
structure FileExtent where
  physical : Nat
  length : Nat
deriving DecidableEq, Repr

/-- `Entry` from src/lib.rs. -/
structure Entry where
  path : FsPath
  ftype : FileType
  ino : Nat
  extents : List FileExtent
deriving DecidableEq, Repr

/-- `Entry::extent_sum`. -/
def Entry.extent_sum (e : Entry) : Nat :=
  (e.extents.map (fun x => x.length)).sum

/-- `mnt::MountEntry`: the source reads `file` (mount point), `spec`
(device) and `vfstype`. -/
structure MountEntry where
  file : FsPath
  spec : String
  vfstype : String
deriving DecidableEq, Repr

/-- One item yielded by a `ReadDir` iterator: a name, the (fallible)
`file_type()` result, and the inode number. -/
structure Dirent where
  name : String
  ftype : Except IoErr FileType
  ino : Nat
deriving DecidableEq, Repr

/-- `Order` from src/lib.rs. -/
inductive Order where
  | Dentries
  | Inode
  | Content
deriving DecidableEq, Repr

/-- `Phase` from src/lib.rs. -/
inductive Phase where
  | DirWalk
  | InodePass
  | ContentPass
deriving DecidableEq, Repr

/-- The external collaborators consumed by the scanner: directory
enumeration (a `ReadDir` is modelled by the list of items it will
yield), the extent-map ioctl, `stat`, and opening a block device. -/
structure FS where
  readDir : FsPath → Except IoErr (List (Except IoErr Dirent))
  extentMap : FsPath → Except IoErr (List FileExtent)
  stat : FsPath → Except IoErr (Nat × FileType)
  openDev : String → Bool

/-- `ToScan` from src/lib.rs.  `current_dir : Option<ReadDir>` is
modelled as the directory's path together with the items not yet
yielded. -/
structure ToScan where
  phy_sorted : List (Nat × Entry)
  phy_sorted_leaves : List (Nat × Entry)
  unordered : List Entry
  cursor : Nat
  current_dir : Option (FsPath × List (Except IoErr Dirent))
  inode_ordered : List Entry
  prefilter : Option (FsPath → FileType → Bool)
  phase : Phase
  order : Order
  batch_size : Nat
  prefetched : List (FsPath × Nat)
  mountpoints : List MountEntry
  prefetch_cap : Nat

/-- `ToScan::new`. -/
def ToScan.new : ToScan where
  phy_sorted := []
  phy_sorted_leaves := []
  unordered := []
  cursor := 0
  current_dir := none
  inode_ordered := []
  prefilter := none
  phase := .DirWalk
  order := .Dentries
  batch_size := 1024
  prefetched := []
  mountpoints := []
  prefetch_cap := 0

/-- `ToScan::set_order`. -/
def ToScan.set_order (s : ToScan) (ord : Order) : ToScan :=
  { s with order := ord }

/-- `ToScan::set_batchsize`. -/
def ToScan.set_batchsize (s : ToScan) (batch : Nat) : ToScan :=
  { s with batch_size := batch }

/-- `ToScan::set_prefilter`. -/
def ToScan.set_prefilter (s : ToScan) (f : FsPath → FileType → Bool) : ToScan :=
  { s with prefilter := some f }

/-- `ToScan::prefetch_dirs`; the mount-table snapshot
(`mnt::MountIter::new_from_proc`) is supplied as an oracle argument. -/
def ToScan.prefetch_dirs (s : ToScan)
    (val : Bool) (mountRes : Except IoErr (List (Except IoErr MountEntry))) : ToScan :=
  if ¬ val then { s with mountpoints := [] }
  else
    match mountRes with
    | .error _ => { s with mountpoints := [] }
    | .ok ms => { s with mountpoints := ms.filterMap (fun r => r.toOption) }

/-- `ToScan::is_empty`. -/
def ToScan.is_empty (s : ToScan) : Prop :=
  s.phy_sorted = [] ∧ s.unordered = [] ∧ s.current_dir = none

instance (s : ToScan) : Decidable s.is_empty := by
  unfold ToScan.is_empty
  infer_instance

/-! ### Stable sort by key (`Vec::sort_by_key`)

Rust's `sort_by_key` is a stable ascending sort; a stable sort by key is a
uniquely determined function, so the stable insertion sort below is *the*
model of it. -/

/-- Insert `x` into `l` before the first element whose key is `≥ key x`
(so previously-placed equal keys stay in front: stability). -/
def insertByKey {α : Type} (key : α → Nat) (x : α) : List α → List α
  | [] => [x]
  | y :: ys => if key x ≤ key y then x :: y :: ys else y :: insertByKey key x ys

/-- Stable ascending sort by a `Nat` key (`Vec::sort_by_key`). -/
def sortByKey {α : Type} (key : α → Nat) : List α → List α
  | [] => []
  | x :: xs => insertByKey key x (sortByKey key xs)

/-! ### `Vec::pop` (remove the last element) -/

/-- `Vec::pop`: returns the last element together with the rest. -/
def popBack {α : Type} : List α → Option (α × List α)
  | [] => none
  | [x] => some (x, [])
  | x :: y :: ys =>
    match popBack (y :: ys) with
    | some (z, zs) => some (z, x :: zs)
    | none => none

/-! ### The `BTreeMap<u64, Entry>` model: key-sorted association lists -/

/-- `BTreeMap::insert`: returns the updated map and the displaced old
value, if any.  Keeps the list key-sorted when the input is. -/
def btInsert (k : Nat) (v : Entry) : List (Nat × Entry) → List (Nat × Entry) × Option Entry
  | [] => ([(k, v)], none)
  | (k1, v1) :: rest =>
    if k < k1 then ((k, v) :: (k1, v1) :: rest, none)
    else if k = k1 then ((k, v) :: rest, some v1)
    else
      let r := btInsert k v rest
      ((k1, v1) :: r.1, r.2)

/-- `BTreeMap::remove` (drops the first pair with the given key). -/
def eraseKey (k : Nat) : List (Nat × Entry) → List (Nat × Entry)
  | [] => []
  | (k1, v1) :: rest => if k = k1 then rest else (k1, v1) :: eraseKey k rest

/-- `BTreeMap::get`-style lookup (first pair with the given key). -/
def lookupKey (k : Nat) : List (Nat × Entry) → Option Entry
  | [] => none
  | (k1, v1) :: rest => if k = k1 then some v1 else lookupKey k rest

/-- `range((Included(&cursor), Included(&u64::MAX))).next()`: the first
pair, in key order, with key in `[c, u64::MAX]`. -/
def findGE (c : Nat) : List (Nat × Entry) → Option (Nat × Entry)
  | [] => none
  | kv :: rest => if c ≤ kv.1 ∧ kv.1 ≤ U64MAX then some kv else findGE c rest

/-! ### Association-list operations for `HashMap<PathBuf, u64>` -/

/-- `HashMap::get`-style lookup. -/
def lookupAssoc (p : FsPath) : List (FsPath × Nat) → Option Nat
  | [] => none
  | kv :: rest => if kv.1 = p then some kv.2 else lookupAssoc p rest

/-- `HashMap::remove` (first matching key). -/
def eraseAssoc (p : FsPath) : List (FsPath × Nat) → List (FsPath × Nat)
  | [] => []
  | kv :: rest => if kv.1 = p then rest else kv :: eraseAssoc p rest

/-! ### The prefetcher (`ToScan::prefetch`) -/

/-- `LIMIT` from `ToScan::prefetch`: 8 MiB of outstanding hint budget. -/
def LIMIT : Nat := 8 * 1024 * 1024

/-- A read-ahead advisory issued via `posix_fadvise(fd, offset, len,
WILLNEED)`: the device spec the fd was opened on, the byte offset, and
the length. -/
abbrev Advisory := String × Nat × Nat

/-- The per-device extent groups
(`device_groups.entry(spec).or_insert(vec![]).extend(&e.extents)`). -/
def addGroup (spec : String) (exts : List FileExtent) :
    List (String × List FileExtent) → List (String × List FileExtent)
  | [] => [(spec, exts)]
  | g :: gs => if g.1 = spec then (g.1, g.2 ++ exts) :: gs else g :: addGroup spec exts gs

/-- Accumulator of the candidate-selection walk in `ToScan::prefetch`. -/
structure PrefetchAcc where
  remaining : Nat
  prefetched : List (FsPath × Nat)
  groups : List (String × List FileExtent)

/-- The candidate-selection walk of `ToScan::prefetch`: iterate the
pending entries in order, stopping when the budget is exhausted or the
number of outstanding hints exceeds `prefetch_cap + 1`, skipping entries
already hinted, recording each new hint and grouping its extents by the
backing device of the most specific ext3/ext4 mount. -/
def prefetchWalk (mounts : List MountEntry) (cap : Nat) :
    List Entry → PrefetchAcc → PrefetchAcc
  | [], acc => acc
  | e :: rest, acc =>
    if acc.remaining = 0 then acc
    else if cap + 1 < acc.prefetched.length then acc
    else if (lookupAssoc e.path acc.prefetched).isSome then
      prefetchWalk mounts cap rest acc
    else
      let size := e.extent_sum
      let acc1 : PrefetchAcc :=
        { remaining := acc.remaining - size
          prefetched := acc.prefetched ++ [(e.path, size)]
          groups := acc.groups }
      let acc2 :=
        match mounts.reverse.find? (fun m => m.file.isPrefixOf e.path) with
        | some m =>
          if m.vfstype = "ext4" ∨ m.vfstype = "ext3" then
            { acc1 with groups := addGroup m.spec e.extents acc1.groups }
          else acc1
        | none => acc1
      prefetchWalk mounts cap rest acc2

/-- The inner coalescing loop of `ToScan::prefetch`: while the next
extent's `physical` does not exceed the current `end`, merge it and
*overwrite* `end` with that extent's `physical + length` (this is what
the source does; it does not take a maximum). -/
def coalesceAux (off en : Nat) : List FileExtent → List (Nat × Nat)
  | [] => [(off, en)]
  | x :: xs =>
    if en < x.physical then (off, en) :: coalesceAux x.physical (x.physical + x.length) xs
    else coalesceAux off (x.physical + x.length) xs

/-- The advisory ranges `(offset, end)` produced by the coalescing loop
of `ToScan::prefetch` for one device's sorted extent list. -/
def coalesce : List FileExtent → List (Nat × Nat)
  | [] => []
  | x :: xs => coalesceAux x.physical (x.physical + x.length) xs

/-- Per-device emission of `ToScan::prefetch`: for each group, sort by
`physical`, open the device; on success issue one advisory
`(offset, end - offset)` per coalesced range, on failure add the spec to
the prune list.  Returns (advisories, prune list). -/
def emitGroups (openDev : String → Bool) :
    List (String × List FileExtent) → List Advisory × List String
  | [] => ([], [])
  | (spec, exts) :: rest =>
    let ordered := sortByKey (fun x => x.physical) exts
    let r := emitGroups openDev rest
    if openDev spec then
      (((coalesce ordered).map (fun pr => (spec, pr.1, pr.2 - pr.1))) ++ r.1, r.2)
    else (r.1, spec :: r.2)

/-- `ToScan::prefetch`. Returns the updated scanner state and the list
of read-ahead advisories issued. -/
def ToScan.prefetch (s : ToScan) (fs : FS) : ToScan × List Advisory :=
  if s.mountpoints = [] then (s, [])
  else
    let consumed := (s.prefetched.map (fun pr => pr.2)).sum
    let remaining := LIMIT - consumed
    if remaining < LIMIT / 2 then (s, [])
    else
      let front := (s.phy_sorted.filter (fun kv => s.cursor ≤ kv.1 ∧ kv.1 ≤ U64MAX)).map
        (fun kv => kv.2)
      let tl := (s.phy_sorted.filter (fun kv => kv.1 < s.cursor)).map (fun kv => kv.2)
      let acc := prefetchWalk s.mountpoints s.prefetch_cap (s.unordered ++ front ++ tl)
        ⟨remaining, s.prefetched, []⟩
      let er := emitGroups fs.openDev acc.groups
      let s1 := { s with prefetched := acc.prefetched }
      let s2 :=
        if er.2 ≠ [] then
          { s1 with mountpoints := s1.mountpoints.filter (fun m => er.2.contains m.spec) }
        else s1
      (s2, er.1)

/-- `ToScan::remove_prefetch`: hit/miss feedback applied when an entry
is consumed. -/
def ToScan.remove_prefetch (s : ToScan) (e : Option Entry) : ToScan :=
  match e with
  | none => s
  | some e =>
    if (lookupAssoc e.path s.prefetched).isSome then
      { s with prefetched := eraseAssoc e.path s.prefetched
               prefetch_cap := min 2048 (s.prefetch_cap * 2 + 1) }
    else
      { s with prefetch_cap := 2
               prefetched := [] }

/-- `ToScan::get_next`. -/
def ToScan.get_next (s : ToScan) (fs : FS) : Option Entry × ToScan :=
  let s0 := (s.prefetch fs).1
  match s0.unordered with
  | e :: rest =>
    let s1 := { s0 with unordered := rest }
    (some e, s1.remove_prefetch (some e))
  | [] =>
    match findGE s0.cursor s0.phy_sorted with
    | some kv =>
      let s1 := { s0 with cursor := kv.1, phy_sorted := eraseKey kv.1 s0.phy_sorted }
      (some kv.2, s1.remove_prefetch (some kv.2))
    | none => (none, s0)

/-- `ToScan::add`. -/
def ToScan.add (s : ToScan) (to_add : Entry) (pos : Option Nat) : ToScan :=
  match pos with
  | some idx =>
    let r := btInsert idx to_add s.phy_sorted
    match r.2 with
    | some old => { s with phy_sorted := r.1, unordered := s.unordered ++ [old] }
    | none => { s with phy_sorted := r.1 }
  | none => { s with unordered := s.unordered ++ [to_add] }

/-- `ToScan::add_root`. -/
def ToScan.add_root (s : ToScan) (fs : FS) (path : FsPath) : ToScan × Except IoErr Unit :=
  match fs.stat path with
  | .error e => (s, .error e)
  | .ok m => (s.add ⟨path, m.2, m.1, []⟩ none, .ok ())

/-! ### The iterator (`<ToScan as Iterator>::next`)

`next` is a `while` loop followed by two phase blocks.  We embed one
iteration of that control flow as `loopStep`; a `return` inside the loop
is `.yield`, falling off the end is `.done`, a failing `assert!` or the
`panic!("illegal state")` arm is `.crash`, and everything else is
`.cont`.  `nextImpl` then iterates `loopStep` to the next yield exactly
as `next` does. -/

inductive StepOut where
  | yield (x : Except IoErr Entry)
  | cont
  | done
  | crash
deriving DecidableEq, Repr

/-- The first extent's physical offset of a file, or 0 when the extent
map is empty or errors (the `Order::Content` arm of `next`). -/
def contentOffset (fs : FS) (p : FsPath) : Nat :=
  match fs.extentMap p with
  | .ok (x :: _) => x.physical
  | _ => 0

/-- The prefilter test in `next`: skip the entry when a filter is set
and rejects it. -/
def skipByFilter (f : Option (FsPath → FileType → Bool)) (p : FsPath) (ft : FileType) : Bool :=
  match f with
  | some filter => ! filter p ft
  | none => false

/-- Queuing of a discovered sub-directory inside the `while` loop of
`next`: its extent map is queried (errors degrade to no extents) and it
is `add`ed at its first extent's physical offset, or unordered when
there are no extents. -/
def queueDir (fs : FS) (s1 : ToScan) (q : FsPath) (meta : FileType) (ino : Nat) : ToScan :=
  if meta.is_dir then
    let extents :=
      match fs.extentMap q with
      | .ok extents => extents
      | .error _ => []
    let to_add : Entry := ⟨q, meta, ino, extents⟩
    match extents with
    | [] => s1.add to_add none
    | e0 :: _ => s1.add to_add (some e0.physical)
  else s1

/-- Emission of one directory entry inside the `while` loop of `next`:
the prefilter may suppress it; otherwise it is yielded immediately
(`Dentries`) or buffered into `inode_ordered`, and the batch threshold
may flip the phase to `InodePass`, reverse-sorting the buffer by inode
(`assert!(self.order != Dentries)` is the `.crash` arm). -/
def emitOrBuffer (s2 : ToScan) (q : FsPath) (meta : FileType) (ino : Nat) :
    StepOut × ToScan :=
  if skipByFilter s2.prefilter q meta then (.cont, s2)
  else
    match s2.order with
    | .Dentries => (.yield (.ok ⟨q, meta, ino, []⟩), s2)
    | _ =>
      let s3 := { s2 with
        inode_ordered := s2.inode_ordered ++ [⟨q, meta, ino, []⟩] }
      if s3.batch_size ≤ s3.inode_ordered.length then
        if s3.order = .Dentries then (.crash, s3)
        else
          (.cont, { s3 with
            phase := .InodePass
            inode_ordered := sortByKey (fun d => U64MAX - d.ino) s3.inode_ordered })
      else (.cont, s3)

/-- Processing of one successfully-typed directory entry inside the
`while` loop of `next`: a discovered sub-directory is queued, then the
entry is emitted or buffered. -/
def processDirent (fs : FS) (s1 : ToScan) (dpath : FsPath) (dent : Dirent)
    (meta : FileType) : StepOut × ToScan :=
  let q := dpath ++ [dent.name]
  emitOrBuffer (queueDir fs s1 q meta dent.ino) q meta dent.ino

/-- One iteration of the `while` loop of `next` (phase `DirWalk`, work
pending): open the next pending directory (resetting the cursor to 0
when the sweep must wrap), or consume one item of the open one. -/
def dirWalkStep (fs : FS) (s : ToScan) : StepOut × ToScan :=
  match s.current_dir with
  | none =>
    let r := s.get_next fs
    match r.1 with
    | none => (.cont, { r.2 with cursor := 0 })
    | some nxt =>
      match fs.readDir nxt.path with
      | .ok dir_iter => (.cont, { r.2 with current_dir := some (nxt.path, dir_iter) })
      | .error open_err => (.yield (.error open_err), r.2)
  | some (dpath, items) =>
    match items with
    | [] => (.cont, { s with current_dir := none })
    | item :: rest =>
      let s1 := { s with current_dir := some (dpath, rest) }
      match item with
      | .error e => (.yield (.error e), s1)
      | .ok dent =>
        match dent.ftype with
        | .error e => (.yield (.error e), s1)
        | .ok meta => processDirent fs s1 dpath dent meta

/-- The `Phase::InodePass` block of `next` (including the
`assert!(!self.inode_ordered.is_empty())`, modelled as `.crash`, and the
`panic!("illegal state")` arm for `Order::Dentries`). -/
def inodeBlock (fs : FS) (s : ToScan) : StepOut × ToScan :=
  if s.inode_ordered = [] then (.crash, s)
  else
    match s.order with
    | .Inode =>
      match popBack s.inode_ordered with
      | some (dent, rest) =>
        let s1 := { s with inode_ordered := rest }
        let s2 := if s1.inode_ordered = [] then { s1 with phase := .DirWalk } else s1
        (.yield (.ok dent), s2)
      | none => (.crash, s)
    | .Content =>
      let drained := s.inode_ordered.reverse
      let newLeaves := s.phy_sorted_leaves ++
        drained.map (fun e => (contentOffset fs e.path, e))
      let s1 : ToScan := { s with
        inode_ordered := []
        phy_sorted_leaves := sortByKey (fun pr => pr.1) newLeaves
        phase := .ContentPass }
      if s1.phy_sorted_leaves = [] then (.crash, s1) else (.cont, s1)
    | .Dentries => (.crash, s)

/-- The `Phase::ContentPass` block of `next` (including its
`assert!`). -/
def contentBlock (s : ToScan) : StepOut × ToScan :=
  if s.phy_sorted_leaves = [] then (.crash, s)
  else
    match popBack s.phy_sorted_leaves with
    | some (pr, rest) =>
      let s1 := { s with phy_sorted_leaves := rest }
      let s2 := if s1.phy_sorted_leaves = [] then { s1 with phase := .DirWalk } else s1
      (.yield (.ok pr.2), s2)
    | none => (.crash, s)

/-- One iteration of the control flow of `<ToScan as Iterator>::next`. -/
def loopStep (fs : FS) (s : ToScan) : StepOut × ToScan :=
  if s.phase = Phase.DirWalk ∧ ¬ s.is_empty then dirWalkStep fs s
  else if s.phase = Phase.InodePass ∨ (s.is_empty ∧ s.inode_ordered ≠ []) then
    inodeBlock fs s
  else if s.phase = Phase.ContentPass ∨ (s.is_empty ∧ s.phy_sorted_leaves ≠ []) then
    contentBlock s
  else (.done, s)

/-- Result of one `next()` call. `fuelOut` is an artifact of the
fuel-indexed embedding and never occurs with sufficient fuel. -/
inductive NextRes where
  | yielded (x : Except IoErr Entry)
  | exhausted
  | crashed
  | fuelOut
deriving DecidableEq, Repr

/-- `<ToScan as Iterator>::next`: iterate `loopStep` until it yields,
finishes, or crashes. -/
def nextImpl (fs : FS) : Nat → ToScan → NextRes × ToScan
  | 0, s => (.fuelOut, s)
  | fuel + 1, s =>
    match loopStep fs s with
    | (.yield x, s1) => (.yielded x, s1)
    | (.done, s1) => (.exhausted, s1)
    | (.crash, s1) => (.crashed, s1)
    | (.cont, s1) => nextImpl fs fuel s1

/-- A whole scan: iterate `loopStep` for `fuel` steps, collecting every
yielded item (the concatenation of the `next()` results). -/
def runScan (fs : FS) : Nat → ToScan → List (Except IoErr Entry) × ToScan
  | 0, s => ([], s)
  | fuel + 1, s =>
    match loopStep fs s with
    | (.done, s1) => ([], s1)
    | (.crash, s1) => ([], s1)
    | (.cont, s1) => runScan fs fuel s1
    | (.yield x, s1) =>
      let r := runScan fs fuel s1
      (x :: r.1, r.2)

/-! ### Derived notions used by the claims -/

/-- Well-formedness of the `BTreeMap` model: keys strictly increasing. -/
def KeysSorted (m : List (Nat × Entry)) : Prop :=
  m.Pairwise (fun a b => a.1 < b.1)

/-- The run of the coalescing loop starting with current end `en`:
the extents merged into the current run, and the remaining extents. -/
def chunkRun (en : Nat) : List FileExtent → List FileExtent × List FileExtent
  | [] => ([], [])
  | x :: xs =>
    if en < x.physical then ([], x :: xs)
    else
      let r := chunkRun (x.physical + x.length) xs
      (x :: r.1, r.2)

/-- The final `end` of a coalescing run: each merged extent overwrites
`end` with its own `physical + length`. -/
def chainEnd (en : Nat) : List FileExtent → Nat
  | [] => en
  | x :: xs => chainEnd (x.physical + x.length) xs

/-- The inode number of an emitted item (errors count as 0); used to
state emission-order claims. -/
def inoOf : Except IoErr Entry → Nat
  | .ok e => e.ino
  | .error _ => 0

/-- The safety invariant of the iterator: whenever the phase is
`InodePass` (resp. `ContentPass`) its buffer is non-empty, and in
`Dentries` order the batch buffer stays empty and the phase stays
`DirWalk`. -/
def SafeInv (s : ToScan) : Prop :=
  (s.phase = .InodePass → s.inode_ordered ≠ []) ∧
  (s.phase = .ContentPass → s.phy_sorted_leaves ≠ []) ∧
  (s.order = .Dentries → s.phase = .DirWalk ∧ s.inode_ordered = [])

instance (s : ToScan) : Decidable (SafeInv s) := by
  unfold SafeInv
  infer_instance

instance (m : List (Nat × Entry)) : Decidable (KeysSorted m) := by
  unfold KeysSorted
  infer_instance

/-! ### Concrete scenarios (witnesses, counterexamples, failing inputs) -/

/-- Scenario S2 of the spec: three regular files with first-extent
physical offsets 9000, 3000, 6000. -/
def entA : Entry := ⟨["d", "a"], ⟨false⟩, 11, []⟩

def entB : Entry := ⟨["d", "b"], ⟨false⟩, 12, []⟩

def entC : Entry := ⟨["d", "c"], ⟨false⟩, 13, []⟩

def fsS2 : FS where
  readDir := fun _ => .ok []
  extentMap := fun p =>
    if p = ["d", "a"] then .ok [⟨9000, 10⟩]
    else if p = ["d", "b"] then .ok [⟨3000, 10⟩]
    else if p = ["d", "c"] then .ok [⟨6000, 10⟩]
    else .error 1
  stat := fun _ => .error 2
  openDev := fun _ => false

/-- The scanner state right after the `DirWalk → InodePass` transition
of scenario S2 with `Order::Content`, `batch_size = 3`: the three files
are buffered (reverse-sorted by inode, as the transition leaves them). -/
def stateS2 : ToScan := { ToScan.new with
  order := .Content
  phase := .InodePass
  batch_size := 3
  inode_ordered := [entC, entB, entA] }

/-- A tiny filesystem: directory `["r"]` holds two regular files. -/
def fs10 : FS where
  readDir := fun p =>
    if p = ["r"] then
      .ok [.ok ⟨"a", .ok ⟨false⟩, 7⟩, .ok ⟨"b", .ok ⟨false⟩, 3⟩]
    else .ok []
  extentMap := fun _ => .error 1
  stat := fun p => if p = ["r"] then .ok (1, ⟨true⟩) else .error 2
  openDev := fun _ => false

/-- Public-operation sequence for the C10 counterexample:
`new()`, `set_order(Inode)`, `add(root, None)`. -/
def state10 : ToScan :=
  (ToScan.new.set_order .Inode).add ⟨["r"], ⟨true⟩, 1, []⟩ none

/-- A filesystem where every directory open fails. -/
def fsFail : FS where
  readDir := fun _ => .error 5
  extentMap := fun _ => .error 1
  stat := fun _ => .error 2
  openDev := fun _ => true

/-- Public-operation sequence for the C7 counterexample: `new()`, a
mount snapshot, two queued roots; the first `next()` prefetches both
entries while `prefetch_cap` is still 0. -/
def stateC7 : ToScan := { ToScan.new with
  mountpoints := [⟨[], "dev0", "ext4"⟩]
  unordered := [⟨["r"], ⟨true⟩, 1, []⟩, ⟨["s"], ⟨true⟩, 2, []⟩] }

/-- State for the C6 counterexample: exactly half the 8 MiB budget is
consumed (`remaining = LIMIT/2`), one fresh candidate is queued. -/
def stateC6 : ToScan := { ToScan.new with
  mountpoints := [⟨[], "dev0", "ext4"⟩]
  prefetched := [(["x"], 4194304)]
  prefetch_cap := 2
  unordered := [⟨["q"], ⟨false⟩, 3, []⟩] }

/-- State for the C8 counterexample: one queued entry whose extents are
`(0,100)` and `(10,5)` — the second is wholly contained in the first. -/
def stateC8 : ToScan := { ToScan.new with
  mountpoints := [⟨[], "dev0", "ext4"⟩]
  unordered := [⟨["q"], ⟨false⟩, 3, [⟨0, 100⟩, ⟨10, 5⟩]⟩] }

/-- Scenario S1 of the spec: three files with inodes 100, 50, 75,
`Order::Inode`, `batch_size = 3`, right after the phase switch (the
buffer sorted by `u64::MAX - ino`). -/
def entI100 : Entry := ⟨["d", "x"], ⟨false⟩, 100, []⟩

def entI50 : Entry := ⟨["d", "y"], ⟨false⟩, 50, []⟩

def entI75 : Entry := ⟨["d", "z"], ⟨false⟩, 75, []⟩

def stateS1 : ToScan := { ToScan.new with
  order := .Inode
  phase := .InodePass
  batch_size := 3
  inode_ordered := sortByKey (fun d => U64MAX - d.ino) [entI100, entI50, entI75] }

/-- State for the C4/C5 witnesses: a sorted two-key queue map and a
non-empty unordered queue. -/
def entQ1 : Entry := ⟨["q1"], ⟨true⟩, 21, []⟩

def entQ2 : Entry := ⟨["q2"], ⟨true⟩, 22, []⟩

def entQ3 : Entry := ⟨["q3"], ⟨true⟩, 23, []⟩

def stateC4 : ToScan := { ToScan.new with
  phy_sorted := [(100, entQ1), (300, entQ2)]
  cursor := 200 }

def stateC5 : ToScan := { ToScan.new with
  phy_sorted := [(100, entQ1), (300, entQ2)]
  unordered := [entQ3] }

/-! ### A filesystem-tree model for the whole-run claim

To state completeness of a whole scan, the oracle `FS` is generated from a
finite directory tree.  A node is what a dirent can resolve to: a dirent
whose `file_type()` call fails, a non-directory, a directory whose
`read_dir` fails, or a directory with a listing; a listing item is either
an iteration error or a named child. -/

mutual
inductive FNode where
  | ftErr (code : IoErr) (ino : Nat)
  | file (ino : Nat)
  | dirFail (ino : Nat) (code : IoErr)
  | dir (ino : Nat) (items : List DirItem)

inductive DirItem where
  | iterErr (code : IoErr)
  | child (name : String) (node : FNode)
end

/-- The `file_type()` result of a node. -/
def nodeFt : FNode → Except IoErr FileType
  | .ftErr c _ => .error c
  | .file _ => .ok ⟨false⟩
  | .dirFail _ _ => .ok ⟨true⟩
  | .dir _ _ => .ok ⟨true⟩

/-- The inode number of a node. -/
def nodeIno : FNode → Nat
  | .ftErr _ i => i
  | .file i => i
  | .dirFail i _ => i
  | .dir i _ => i

/-- The `ReadDir` item a listing item produces. -/
def direntResOf : DirItem → Except IoErr Dirent
  | .iterErr c => .error c
  | .child name n => .ok ⟨name, nodeFt n, nodeIno n⟩

/-- The `ReadDir` stream of a listing. -/
def listingOf (items : List DirItem) : List (Except IoErr Dirent) :=
  items.map direntResOf

/-- The child names of a listing. -/
def childNames : List DirItem → List String
  | [] => []
  | .iterErr _ :: its => childNames its
  | .child name _ :: its => name :: childNames its

mutual
/-- Resolution of a path in the tree. -/
def lookupNode : FNode → FsPath → Option FNode
  | n, [] => some n
  | .dir _ items, name :: rest => lookupItems items name rest
  | _, _ :: _ => none

/-- Resolution of `name :: rest` in a listing. -/
def lookupItems : List DirItem → String → FsPath → Option FNode
  | [], _, _ => none
  | .iterErr _ :: its, name, rest => lookupItems its name rest
  | .child nm c :: its, name, rest =>
    if nm = name then lookupNode c rest else lookupItems its name rest
end

/-- The oracle generated by a tree: `read_dir` succeeds exactly on
directory nodes (`ENOTDIR` on non-directories, `ENOENT` on missing
paths), `stat` reports the node's inode and type; the extent map and the
device-open oracle are free parameters. -/
def fsOfTree (t : FNode) (extM : FsPath → Except IoErr (List FileExtent))
    (devs : String → Bool) : FS where
  readDir p :=
    match lookupNode t p with
    | some (.dir _ items) => .ok (listingOf items)
    | some (.dirFail _ c) => .error c
    | some _ => .error 20
    | none => .error 2
  extentMap := extM
  stat p :=
    match lookupNode t p with
    | some n =>
      match nodeFt n with
      | .ok ft => .ok (nodeIno n, ft)
      | .error c => .error c
    | none => .error 2
  openDev := devs

mutual
/-- Well-formedness of a tree: sibling names are distinct, so every
reachable entry has a unique path. -/
def wfNode : FNode → Bool
  | .dir _ items => decide (childNames items).Nodup && wfItems items
  | _ => true

def wfItems : List DirItem → Bool
  | [] => true
  | .iterErr _ :: its => wfItems its
  | .child _ n :: its => wfNode n && wfItems its
end

mutual
/-- The multiset of paths the scanner emits as `Ok` for the subtree at a
*queued* node (a queued non-directory only yields a `read_dir` error,
and roots are never themselves emitted). -/
def nodeEmits (f : Option (FsPath → FileType → Bool)) : FNode → FsPath → Multiset FsPath
  | .dir _ items, p => itemsEmits f items p
  | _, _ => 0

def itemsEmits (f : Option (FsPath → FileType → Bool)) :
    List DirItem → FsPath → Multiset FsPath
  | [], _ => 0
  | it :: its, p => itemEmits f it p + itemsEmits f its p

/-- What one listing item contributes: its own dirent (unless the
`file_type()` call fails or the prefilter rejects it) plus its subtree. -/
def itemEmits (f : Option (FsPath → FileType → Bool)) : DirItem → FsPath → Multiset FsPath
  | .iterErr _, _ => 0
  | .child name n, p =>
    (match nodeFt n with
     | .error _ => 0
     | .ok ft => if skipByFilter f (p ++ [name]) ft then 0 else {p ++ [name]}) +
    nodeEmits f n (p ++ [name])
end

mutual
/-- `Err` items produced once a node has been dequeued and `read_dir`ed. -/
def nodeErrsQ : FNode → Nat
  | .dir _ items => itemsErrs items
  | _ => 1

def itemsErrs : List DirItem → Nat
  | [] => 0
  | it :: its => itemErrs it + itemsErrs its

/-- `Err` items one listing item contributes. -/
def itemErrs : DirItem → Nat
  | .iterErr _ => 1
  | .child _ n => subErrs n

/-- `Err` items a dirent-resolved node contributes: a failing
`file_type()` is yielded once and stops there; a discovered directory is
queued and may fail later; a plain file never errors. -/
def subErrs : FNode → Nat
  | .ftErr _ _ => 1
  | .file _ => 0
  | .dirFail _ _ => 1
  | .dir _ items => itemsErrs items
end

mutual
/-- Termination weight of a queued node. -/
def nodeW : FNode → Nat
  | .dir _ items => 2 + itemsW items
  | _ => 1

def itemsW : List DirItem → Nat
  | [] => 0
  | it :: its => itemW it + itemsW its

def itemW : DirItem → Nat
  | .iterErr _ => 1
  | .child _ n => 3 + nodeW n
end

/-- All entries queued for `read_dir` (the `unordered` deque plus the
`phy_sorted` map), as a multiset. -/
def qMset (s : ToScan) : Multiset Entry :=
  (s.unordered : Multiset Entry) + ↑(s.phy_sorted.map Prod.snd)

/-- Pending `Ok` emissions of one queued entry. -/
def entryEmits (t : FNode) (f : Option (FsPath → FileType → Bool)) (e : Entry) :
    Multiset FsPath :=
  match lookupNode t e.path with
  | some n => nodeEmits f n e.path
  | none => 0

/-- Pending `Err` emissions of one queued entry. -/
def entryErrs (t : FNode) (e : Entry) : Nat :=
  match lookupNode t e.path with
  | some n => nodeErrsQ n
  | none => 0

/-- Termination weight of one queued entry. -/
def entryW (t : FNode) (e : Entry) : Nat :=
  match lookupNode t e.path with
  | some n => nodeW n
  | none => 1

/-- Pending `Ok` emissions of one not-yet-consumed `ReadDir` item of the
open directory `p`. -/
def direntResEmits (t : FNode) (f : Option (FsPath → FileType → Bool)) (p : FsPath) :
    Except IoErr Dirent → Multiset FsPath
  | .error _ => 0
  | .ok d =>
    match lookupNode t (p ++ [d.name]) with
    | some n =>
      (match nodeFt n with
       | .error _ => 0
       | .ok ft => if skipByFilter f (p ++ [d.name]) ft then 0 else {p ++ [d.name]}) +
      nodeEmits f n (p ++ [d.name])
    | none => 0

/-- Pending `Err` emissions of one not-yet-consumed `ReadDir` item. -/
def direntResErrs (t : FNode) (p : FsPath) : Except IoErr Dirent → Nat
  | .error _ => 1
  | .ok d =>
    match lookupNode t (p ++ [d.name]) with
    | some n => subErrs n
    | none => 0

/-- Termination weight of one not-yet-consumed `ReadDir` item. -/
def direntResW (t : FNode) (p : FsPath) : Except IoErr Dirent → Nat
  | .error _ => 1
  | .ok d =>
    match lookupNode t (p ++ [d.name]) with
    | some n => 3 + nodeW n
    | none => 1

/-- Pending `Ok` emissions of the open `ReadDir`, if any. -/
def curEmits (t : FNode) (f : Option (FsPath → FileType → Bool)) :
    Option (FsPath × List (Except IoErr Dirent)) → Multiset FsPath
  | none => 0
  | some pr => (pr.2.map (direntResEmits t f pr.1)).sum

/-- Pending `Err` emissions of the open `ReadDir`, if any. -/
def curErrs (t : FNode) : Option (FsPath × List (Except IoErr Dirent)) → Nat
  | none => 0
  | some pr => (pr.2.map (direntResErrs t pr.1)).sum

/-- Termination weight of the open `ReadDir`, if any. -/
def curW (t : FNode) : Option (FsPath × List (Except IoErr Dirent)) → Nat
  | none => 0
  | some pr => 1 + (pr.2.map (direntResW t pr.1)).sum

/-- All `Ok` emissions still pending in a scanner state: subtrees of
queued entries, the rest of the open directory, and the two batch
buffers. -/
def EState (t : FNode) (f : Option (FsPath → FileType → Bool)) (s : ToScan) :
    Multiset FsPath :=
  ((qMset s).map (entryEmits t f)).sum + curEmits t f s.current_dir +
    ↑(s.inode_ordered.map Entry.path) + ↑(s.phy_sorted_leaves.map (fun pr => pr.2.path))

/-- All `Err` emissions still pending in a scanner state. -/
def FState (t : FNode) (s : ToScan) : Nat :=
  ((qMset s).map (entryErrs t)).sum + curErrs t s.current_dir

/-- Total termination weight of a scanner state. -/
def WState (t : FNode) (s : ToScan) : Nat :=
  ((qMset s).map (entryW t)).sum + curW t s.current_dir +
    2 * s.inode_ordered.length + s.phy_sorted_leaves.length

/-- The cursor-wrap flag: 1 exactly when the next `DirWalk` step will be
a bare cursor reset (the only step that moves no weight). -/
def stuckB (s : ToScan) : Nat :=
  if s.phase = Phase.DirWalk ∧ ¬ s.is_empty ∧ s.current_dir = none ∧
      s.unordered = [] ∧ findGE s.cursor s.phy_sorted = none then 1 else 0

/-- The termination measure: every non-final step strictly decreases
it. -/
def MState (t : FNode) (s : ToScan) : Nat :=
  2 * WState t s + stuckB s

/-- Boundedness of an extent-map oracle answer (offsets are `u64`). -/
def extOk (r : Except IoErr (List FileExtent)) : Prop :=
  match r with
  | .ok l => ∀ x ∈ l, x.physical ≤ U64MAX
  | .error _ => True

/-- The coupling invariant between a scanner state and the tree: the
prefilter is the configured one; every queued path resolves in the tree;
the open `ReadDir` is the stream of a sub-listing of what the tree
assigns to its path; the `BTreeMap` model is key-sorted with `u64` keys;
and the phase/buffer safety invariant holds. -/
def QInv (t : FNode) (f : Option (FsPath → FileType → Bool)) (s : ToScan) : Prop :=
  s.prefilter = f ∧
  (∀ e ∈ qMset s, (lookupNode t e.path).isSome) ∧
  (match s.current_dir with
   | none => True
   | some pr => ∃ dino items₀ items₁,
      lookupNode t pr.1 = some (.dir dino items₀) ∧
      items₁ ⊆ items₀ ∧ pr.2 = listingOf items₁) ∧
  KeysSorted s.phy_sorted ∧
  (∀ kv ∈ s.phy_sorted, kv.1 ≤ U64MAX) ∧
  SafeInv s

/-- Per-step guarantee: a step never crashes; `done` happens only with
nothing pending; otherwise the coupling invariant is preserved, the
measure drops, and the pending-emission accounts change exactly by the
yielded item. -/
def stepOk (t : FNode) (f : Option (FsPath → FileType → Bool)) (s : ToScan)
    (r : StepOut × ToScan) : Prop :=
  match r with
  | (.crash, _) => False
  | (.done, s1) => s1 = s ∧ EState t f s = 0 ∧ FState t s = 0
  | (.cont, s1) => QInv t f s1 ∧ EState t f s1 = EState t f s ∧
      FState t s1 = FState t s ∧ MState t s1 < MState t s
  | (.yield (.ok e), s1) => QInv t f s1 ∧ EState t f s1 + {e.path} = EState t f s ∧
      FState t s1 = FState t s ∧ MState t s1 < MState t s
  | (.yield (.error _), s1) => QInv t f s1 ∧ EState t f s1 = EState t f s ∧
      FState t s1 + 1 = FState t s ∧ MState t s1 < MState t s

/-- Paths of the `Ok` items of an output stream. -/
def okPathsOf (outs : List (Except IoErr Entry)) : Multiset FsPath :=
  ↑(outs.filterMap (fun x => match x with
    | .ok e => some e.path
    | .error _ => none))

/-- Number of `Err` items of an output stream. -/
def errCount (outs : List (Except IoErr Entry)) : Nat :=
  (outs.filter (fun x => match x with
    | .ok _ => false
    | .error _ => true)).length

/-- A freshly configured scanner with one root added: `new()`, then
`set_order`, `set_batchsize`, optionally `set_prefilter`, then
`prefetch_dirs(true)` over a mount table, then one root entry exactly as
a successful `add_root` enqueues it (no position, no extents). -/
def initState (ord : Order) (bs : Nat) (f : Option (FsPath → FileType → Bool))
    (mounts : List MountEntry) (rft : FileType) (rino : Nat) : ToScan :=
  let s0 := (ToScan.new.set_order ord).set_batchsize bs
  let s1 := match f with
    | some ff => s0.set_prefilter ff
    | none => s0
  let s2 := s1.prefetch_dirs true (.ok (mounts.map Except.ok))
  s2.add ⟨[], rft, rino, []⟩ none

/-- The displaced occupant of a `BTreeMap::insert`, as a multiset. -/
def optMset : Option Entry → Multiset Entry
  | some e => {e}
  | none => 0

/-- A small concrete tree for the whole-run witness: a plain file, a
sub-directory with an iteration error and a file, a dirent whose
`file_type()` fails, and a directory whose `read_dir` fails. -/
def tWit : FNode :=
  .dir 1 [.child "a" (.file 2),
          .child "b" (.dir 3 [.iterErr 5, .child "c" (.file 4)]),
          .child "d" (.ftErr 7 9),
          .child "e" (.dirFail 8 13)]

/-! ### Helper lemmas -/

theorem insertByKey_perm {α : Type} (key : α → Nat) (x : α) (l : List α) :
    List.Perm (insertByKey key x l) (x :: l) := by
  induction l with
  | nil => simp [insertByKey]
  | cons y ys ih =>
    simp only [insertByKey]
    split
    · exact List.Perm.refl _
    · exact ((ih.cons y).trans (List.Perm.swap x y ys))

theorem sortByKey_perm {α : Type} (key : α → Nat) (l : List α) :
    List.Perm (sortByKey key l) l := by
  induction l with
  | nil => simp [sortByKey]
  | cons x xs ih =>
    exact (insertByKey_perm key x (sortByKey key xs)).trans (ih.cons x)

theorem insertByKey_pairwise {α : Type} (key : α → Nat) (x : α) (l : List α)
    (h : l.Pairwise (fun a b => key a ≤ key b)) :
    (insertByKey key x l).Pairwise (fun a b => key a ≤ key b) := by
  induction l with
  | nil => simp [insertByKey]
  | cons y ys ih =>
    have hy := (List.pairwise_cons.mp h).1
    have hys := (List.pairwise_cons.mp h).2
    simp only [insertByKey]
    split
    · rename_i hxy
      refine List.Pairwise.cons ?_ h
      intro b hb
      rcases List.mem_cons.mp hb with hb | hb
      · subst hb; exact hxy
      · exact le_trans hxy (hy b hb)
    · rename_i hxy
      push_neg at hxy
      refine List.Pairwise.cons ?_ (ih hys)
      intro b hb
      have hmem : b ∈ x :: ys := (insertByKey_perm key x ys).mem_iff.mp hb
      rcases List.mem_cons.mp hmem with hb2 | hb2
      · subst hb2; exact le_of_lt hxy
      · exact hy b hb2

theorem sortByKey_pairwise {α : Type} (key : α → Nat) (l : List α) :
    (sortByKey key l).Pairwise (fun a b => key a ≤ key b) := by
  induction l with
  | nil => simp [sortByKey]
  | cons x xs ih => exact insertByKey_pairwise key x _ ih

theorem sortByKey_length {α : Type} (key : α → Nat) (l : List α) :
    (sortByKey key l).length = l.length :=
  (sortByKey_perm key l).length_eq

theorem sortByKey_eq_nil_iff {α : Type} (key : α → Nat) (l : List α) :
    sortByKey key l = [] ↔ l = [] := by
  constructor
  · intro h
    have := sortByKey_length key l
    rw [h] at this
    exact List.length_eq_zero.mp this.symm
  · intro h; subst h; simp [sortByKey]

theorem popBack_nil {α : Type} : popBack ([] : List α) = none := rfl

theorem popBack_eq_some {α : Type} : ∀ (l : List α) (x : α) (xs : List α),
    popBack l = some (x, xs) → l = xs ++ [x] := by
  intro l
  induction l with
  | nil => intro x xs h; simp [popBack] at h
  | cons a t ih =>
    intro x xs h
    cases t with
    | nil =>
      simp only [popBack, Option.some.injEq, Prod.mk.injEq] at h
      obtain ⟨h1, h2⟩ := h
      subst h1
      subst h2
      rfl
    | cons b bs =>
      simp only [popBack] at h
      rcases hrec : popBack (b :: bs) with _ | ⟨z, zs⟩
      · rw [hrec] at h
        simp at h
      · rw [hrec] at h
        simp only [Option.some.injEq, Prod.mk.injEq] at h
        obtain ⟨h1, h2⟩ := h
        rw [← h2, ← h1]
        have hh := ih z zs hrec
        rw [List.cons_append, ← hh]

theorem popBack_append {α : Type} (xs : List α) (x : α) :
    popBack (xs ++ [x]) = some (x, xs) := by
  induction xs with
  | nil => rfl
  | cons a t ih =>
    cases t with
    | nil => simp [popBack]
    | cons b bs =>
      simp only [List.cons_append] at ih ⊢
      simp only [popBack]
      rw [ih]

theorem popBack_isSome {α : Type} (l : List α) (h : l ≠ []) :
    ∃ x xs, popBack l = some (x, xs) := by
  induction l with
  | nil => exact absurd rfl h
  | cons a t ih =>
    cases t with
    | nil => exact ⟨a, [], rfl⟩
    | cons b bs =>
      obtain ⟨x, xs, hx⟩ := ih (by simp)
      exact ⟨x, a :: xs, by simp [popBack, hx]⟩

theorem lookupKey_eq_none {m : List (Nat × Entry)} {k : Nat}
    (h : ∀ kv ∈ m, kv.1 ≠ k) : lookupKey k m = none := by
  induction m with
  | nil => rfl
  | cons kv rest ih =>
    simp only [lookupKey]
    rw [if_neg, ih]
    · intro kv2 h2; exact h kv2 (List.mem_cons_of_mem kv h2)
    · intro hc; exact h kv (List.mem_cons_self kv rest) hc.symm

theorem btInsert_spec (k : Nat) (v : Entry) (m : List (Nat × Entry)) (hs : KeysSorted m) :
    (btInsert k v m).2 = lookupKey k m ∧
    lookupKey k (btInsert k v m).1 = some v ∧
    (∀ k2, k2 ≠ k → lookupKey k2 (btInsert k v m).1 = lookupKey k2 m) := by
  induction m with
  | nil =>
    refine ⟨rfl, by simp [btInsert, lookupKey], ?_⟩
    intro k2 hk2
    simp [btInsert, lookupKey, hk2]
  | cons kv rest ih =>
    obtain ⟨k1, v1⟩ := kv
    have hhead := (List.pairwise_cons.mp hs).1
    have hrest : KeysSorted rest := (List.pairwise_cons.mp hs).2
    simp only [btInsert, lookupKey]
    by_cases h1 : k < k1
    · rw [if_pos h1]
      have hne : k ≠ k1 := Nat.ne_of_lt h1
      refine ⟨?_, ?_, ?_⟩
      · simp only [lookupKey]
        rw [if_neg hne, lookupKey_eq_none]
        intro kv2 h2
        exact Nat.ne_of_gt (lt_trans h1 (hhead kv2 h2))
      · simp [lookupKey]
      · intro k2 hk2
        simp [lookupKey, hk2]
    · rw [if_neg h1]
      by_cases h2 : k = k1
      · rw [if_pos h2]
        refine ⟨by simp [lookupKey, h2], by simp [lookupKey], ?_⟩
        intro k2 hk2
        have : k2 ≠ k1 := by rw [← h2]; exact hk2
        simp [lookupKey, hk2, this]
      · rw [if_neg h2]
        obtain ⟨ih1, ih2, ih3⟩ := ih hrest
        refine ⟨?_, ?_, ?_⟩
        · simp only [lookupKey]
          rw [if_neg h2]
          exact ih1
        · simp only [lookupKey]
          rw [if_neg h2]
          exact ih2
        · intro k2 hk2
          simp only [lookupKey]
          by_cases h3 : k2 = k1
          · simp [h3]
          · rw [if_neg h3, if_neg h3]
            exact ih3 k2 hk2

theorem btInsert_mem (k : Nat) (v : Entry) : ∀ (m : List (Nat × Entry)) (kv2 : Nat × Entry),
    kv2 ∈ (btInsert k v m).1 → kv2 = (k, v) ∨ kv2 ∈ m := by
  intro m
  induction m with
  | nil => intro kv2 h; simp [btInsert] at h; simp [h]
  | cons kv3 rest ih =>
    intro kv2 h
    simp only [btInsert] at h
    by_cases h5 : k < kv3.1
    · rw [if_pos h5] at h
      rcases List.mem_cons.mp h with h6 | h6
      · exact Or.inl h6
      · exact Or.inr h6
    · rw [if_neg h5] at h
      by_cases h6 : k = kv3.1
      · rw [if_pos h6] at h
        rcases List.mem_cons.mp h with h7 | h7
        · exact Or.inl h7
        · exact Or.inr (List.mem_cons_of_mem kv3 h7)
      · rw [if_neg h6] at h
        rcases List.mem_cons.mp h with h7 | h7
        · exact Or.inr (by rw [h7]; exact List.mem_cons_self kv3 rest)
        · rcases ih kv2 h7 with h8 | h8
          · exact Or.inl h8
          · exact Or.inr (List.mem_cons_of_mem kv3 h8)

theorem btInsert_keysSorted (k : Nat) (v : Entry) (m : List (Nat × Entry))
    (hs : KeysSorted m) : KeysSorted (btInsert k v m).1 := by
  induction m with
  | nil => simp [btInsert, KeysSorted]
  | cons kv rest ih =>
    obtain ⟨k1, v1⟩ := kv
    have hhead := (List.pairwise_cons.mp hs).1
    have hrest : KeysSorted rest := (List.pairwise_cons.mp hs).2
    simp only [btInsert]
    by_cases h1 : k < k1
    · rw [if_pos h1]
      refine List.Pairwise.cons ?_ hs
      intro kv2 h2
      rcases List.mem_cons.mp h2 with h3 | h3
      · subst h3; exact h1
      · exact lt_trans h1 (hhead kv2 h3)
    · rw [if_neg h1]
      by_cases h2 : k = k1
      · rw [if_pos h2]
        subst h2
        exact List.Pairwise.cons hhead hrest
      · rw [if_neg h2]
        refine List.Pairwise.cons ?_ (ih hrest)
        intro kv2 h3
        have hk1k : k1 < k := by omega
        rcases btInsert_mem k v rest kv2 h3 with h4 | h4
        · rw [h4]; exact hk1k
        · exact hhead kv2 h4

theorem findGE_some {c : Nat} : ∀ {m : List (Nat × Entry)} {kv : Nat × Entry},
    findGE c m = some kv → kv ∈ m ∧ c ≤ kv.1 ∧ kv.1 ≤ U64MAX := by
  intro m
  induction m with
  | nil => intro kv h; simp [findGE] at h
  | cons kv1 rest ih =>
    intro kv h
    simp only [findGE] at h
    split at h
    · rename_i hcond
      rw [Option.some.injEq] at h
      subst h
      exact ⟨List.mem_cons_self kv1 rest, hcond⟩
    · obtain ⟨h1, h2⟩ := ih h
      exact ⟨List.mem_cons_of_mem kv1 h1, h2⟩

theorem findGE_none {c : Nat} : ∀ {m : List (Nat × Entry)},
    findGE c m = none → ∀ kv ∈ m, ¬ (c ≤ kv.1 ∧ kv.1 ≤ U64MAX) := by
  intro m
  induction m with
  | nil => intro _ kv h; simp at h
  | cons kv1 rest ih =>
    intro h kv hkv
    simp only [findGE] at h
    split at h
    · exact absurd h (by simp)
    · rename_i hcond
      rcases List.mem_cons.mp hkv with h2 | h2
      · rw [h2]; exact hcond
      · exact ih h kv h2

theorem findGE_min {c : Nat} : ∀ {m : List (Nat × Entry)} {kv : Nat × Entry},
    KeysSorted m → (∀ kv2 ∈ m, kv2.1 ≤ U64MAX) →
    findGE c m = some kv → ∀ kv2 ∈ m, c ≤ kv2.1 → kv.1 ≤ kv2.1 := by
  intro m
  induction m with
  | nil => intro kv _ _ h; simp [findGE] at h
  | cons kv1 rest ih =>
    intro kv hs hb h kv2 hkv2 hc
    have hhead := (List.pairwise_cons.mp hs).1
    have hrest : KeysSorted rest := (List.pairwise_cons.mp hs).2
    simp only [findGE] at h
    split at h
    · rw [Option.some.injEq] at h
      subst h
      rcases List.mem_cons.mp hkv2 with h2 | h2
      · rw [h2]
      · exact le_of_lt (hhead kv2 h2)
    · rename_i hcond
      have hk1 : ¬ c ≤ kv1.1 := by
        intro hcc
        exact hcond ⟨hcc, hb kv1 (List.mem_cons_self kv1 rest)⟩
      rcases List.mem_cons.mp hkv2 with h2 | h2
      · rw [h2] at hc; exact absurd hc hk1
      · exact ih hrest (fun kv3 h3 => hb kv3 (List.mem_cons_of_mem kv1 h3)) h kv2 h2 hc

theorem eraseKey_lookup_other {k k2 : Nat} (hne : k2 ≠ k) :
    ∀ (m : List (Nat × Entry)), lookupKey k2 (eraseKey k m) = lookupKey k2 m := by
  intro m
  induction m with
  | nil => rfl
  | cons kv rest ih =>
    simp only [eraseKey, lookupKey]
    by_cases h1 : k = kv.1
    · rw [if_pos h1, if_neg (by rw [← h1]; exact hne)]
    · rw [if_neg h1]
      by_cases h2 : k2 = kv.1
      · simp only [lookupKey]
        rw [if_pos h2, if_pos h2]
      · simp only [lookupKey]
        rw [if_neg h2, if_neg h2]
        exact ih

theorem eraseKey_lookup_self {k : Nat} : ∀ (m : List (Nat × Entry)),
    KeysSorted m → lookupKey k (eraseKey k m) = none := by
  intro m
  induction m with
  | nil => intro _; rfl
  | cons kv rest ih =>
    intro hs
    have hhead := (List.pairwise_cons.mp hs).1
    have hrest : KeysSorted rest := (List.pairwise_cons.mp hs).2
    simp only [eraseKey]
    by_cases h1 : k = kv.1
    · rw [if_pos h1]
      apply lookupKey_eq_none
      intro kv2 h2
      rw [h1]
      exact Nat.ne_of_gt (hhead kv2 h2)
    · rw [if_neg h1]
      simp only [lookupKey]
      rw [if_neg h1]
      exact ih hrest

theorem eraseKey_keysSorted {k : Nat} : ∀ (m : List (Nat × Entry)),
    KeysSorted m → KeysSorted (eraseKey k m) := by
  intro m
  induction m with
  | nil => intro _; exact List.Pairwise.nil
  | cons kv rest ih =>
    intro hs
    have hhead := (List.pairwise_cons.mp hs).1
    have hrest : KeysSorted rest := (List.pairwise_cons.mp hs).2
    simp only [eraseKey]
    by_cases h1 : k = kv.1
    · rw [if_pos h1]; exact hrest
    · rw [if_neg h1]
      refine List.Pairwise.cons ?_ (ih hrest)
      intro kv2 h2
      have hsub : eraseKey k rest ⊆ rest := by
        clear h2 ih hhead hrest hs
        induction rest with
        | nil => simp [eraseKey]
        | cons kv3 rest2 ih2 =>
          simp only [eraseKey]
          by_cases h3 : k = kv3.1
          · rw [if_pos h3]; exact List.subset_cons_self kv3 rest2
          · rw [if_neg h3]
            exact List.cons_subset_cons kv3 ih2
      exact hhead kv2 (hsub h2)

theorem eraseKey_perm {k : Nat} {v : Entry} : ∀ (m : List (Nat × Entry)),
    KeysSorted m → lookupKey k m = some v → List.Perm m ((k, v) :: eraseKey k m) := by
  intro m
  induction m with
  | nil => intro _ h; simp [lookupKey] at h
  | cons kv rest ih =>
    intro hs hl
    have hrest : KeysSorted rest := (List.pairwise_cons.mp hs).2
    simp only [lookupKey] at hl
    simp only [eraseKey]
    by_cases h1 : k = kv.1
    · rw [if_pos h1] at hl ⊢
      rcases hl with hl
      have : kv = (k, v) := by
        obtain ⟨ka, va⟩ := kv
        simp at h1 hl
        simp [h1, hl]
      rw [this]
    · rw [if_neg h1] at hl ⊢
      exact ((ih hrest hl).cons kv).trans (List.Perm.swap (k, v) kv (eraseKey k rest))

/-! ### State-projection lemmas: which fields each operation touches -/

theorem prefetch_state (s : ToScan) (fs : FS) :
    ((s.prefetch fs).1).phy_sorted = s.phy_sorted ∧
    ((s.prefetch fs).1).phy_sorted_leaves = s.phy_sorted_leaves ∧
    ((s.prefetch fs).1).unordered = s.unordered ∧
    ((s.prefetch fs).1).cursor = s.cursor ∧
    ((s.prefetch fs).1).current_dir = s.current_dir ∧
    ((s.prefetch fs).1).inode_ordered = s.inode_ordered ∧
    ((s.prefetch fs).1).prefilter = s.prefilter ∧
    ((s.prefetch fs).1).phase = s.phase ∧
    ((s.prefetch fs).1).order = s.order ∧
    ((s.prefetch fs).1).batch_size = s.batch_size ∧
    ((s.prefetch fs).1).prefetch_cap = s.prefetch_cap := by
  simp only [ToScan.prefetch]
  split
  · simp
  · split
    · simp
    · split <;> simp

theorem remove_prefetch_state (s : ToScan) (oe : Option Entry) :
    (s.remove_prefetch oe).phy_sorted = s.phy_sorted ∧
    (s.remove_prefetch oe).phy_sorted_leaves = s.phy_sorted_leaves ∧
    (s.remove_prefetch oe).unordered = s.unordered ∧
    (s.remove_prefetch oe).cursor = s.cursor ∧
    (s.remove_prefetch oe).current_dir = s.current_dir ∧
    (s.remove_prefetch oe).inode_ordered = s.inode_ordered ∧
    (s.remove_prefetch oe).prefilter = s.prefilter ∧
    (s.remove_prefetch oe).phase = s.phase ∧
    (s.remove_prefetch oe).order = s.order ∧
    (s.remove_prefetch oe).batch_size = s.batch_size ∧
    (s.remove_prefetch oe).mountpoints = s.mountpoints := by
  cases oe with
  | none => simp [ToScan.remove_prefetch]
  | some e =>
    simp only [ToScan.remove_prefetch]
    split <;> simp

theorem add_state (s : ToScan) (to_add : Entry) (pos : Option Nat) :
    (s.add to_add pos).phy_sorted_leaves = s.phy_sorted_leaves ∧
    (s.add to_add pos).cursor = s.cursor ∧
    (s.add to_add pos).current_dir = s.current_dir ∧
    (s.add to_add pos).inode_ordered = s.inode_ordered ∧
    (s.add to_add pos).prefilter = s.prefilter ∧
    (s.add to_add pos).phase = s.phase ∧
    (s.add to_add pos).order = s.order ∧
    (s.add to_add pos).batch_size = s.batch_size ∧
    (s.add to_add pos).prefetched = s.prefetched ∧
    (s.add to_add pos).mountpoints = s.mountpoints ∧
    (s.add to_add pos).prefetch_cap = s.prefetch_cap := by
  cases pos with
  | none => simp [ToScan.add]
  | some idx =>
    simp only [ToScan.add]
    split <;> simp

theorem get_next_state (s : ToScan) (fs : FS) :
    ((s.get_next fs).2).phy_sorted_leaves = s.phy_sorted_leaves ∧
    ((s.get_next fs).2).current_dir = s.current_dir ∧
    ((s.get_next fs).2).inode_ordered = s.inode_ordered ∧
    ((s.get_next fs).2).prefilter = s.prefilter ∧
    ((s.get_next fs).2).phase = s.phase ∧
    ((s.get_next fs).2).order = s.order ∧
    ((s.get_next fs).2).batch_size = s.batch_size := by
  obtain ⟨hp1, hp2, hp3, hp4, hp5, hp6, hp7, hp8, hp9, hp10, hp11⟩ := prefetch_state s fs
  simp only [ToScan.get_next]
  split
  · rename_i e rest heq
    obtain ⟨hr1, hr2, hr3, hr4, hr5, hr6, hr7, hr8, hr9, hr10, hr11⟩ :=
      remove_prefetch_state { (s.prefetch fs).1 with unordered := rest } (some e)
    exact ⟨hr2.trans hp2, hr5.trans hp5, hr6.trans hp6, hr7.trans hp7, hr8.trans hp8,
      hr9.trans hp9, hr10.trans hp10⟩
  · split
    · rename_i kv heq2
      obtain ⟨hr1, hr2, hr3, hr4, hr5, hr6, hr7, hr8, hr9, hr10, hr11⟩ :=
        remove_prefetch_state
          { (s.prefetch fs).1 with
              cursor := kv.1
              phy_sorted := eraseKey kv.1 ((s.prefetch fs).1).phy_sorted } (some kv.2)
      exact ⟨hr2.trans hp2, hr5.trans hp5, hr6.trans hp6, hr7.trans hp7, hr8.trans hp8,
        hr9.trans hp9, hr10.trans hp10⟩
    · exact ⟨hp2, hp5, hp6, hp7, hp8, hp9, hp10⟩

theorem queueDir_state (fs : FS) (s1 : ToScan) (q : FsPath) (meta : FileType) (ino : Nat) :
    (queueDir fs s1 q meta ino).phy_sorted_leaves = s1.phy_sorted_leaves ∧
    (queueDir fs s1 q meta ino).cursor = s1.cursor ∧
    (queueDir fs s1 q meta ino).current_dir = s1.current_dir ∧
    (queueDir fs s1 q meta ino).inode_ordered = s1.inode_ordered ∧
    (queueDir fs s1 q meta ino).prefilter = s1.prefilter ∧
    (queueDir fs s1 q meta ino).phase = s1.phase ∧
    (queueDir fs s1 q meta ino).order = s1.order ∧
    (queueDir fs s1 q meta ino).batch_size = s1.batch_size ∧
    (queueDir fs s1 q meta ino).prefetched = s1.prefetched ∧
    (queueDir fs s1 q meta ino).mountpoints = s1.mountpoints ∧
    (queueDir fs s1 q meta ino).prefetch_cap = s1.prefetch_cap := by
  by_cases hd : meta.is_dir
  · simp only [queueDir, if_pos hd]
    split
    · exact add_state s1 _ none
    · exact add_state s1 _ _
  · simp [queueDir, if_neg hd]

/-- `SafeInv` holds at any state whose phase is `DirWalk` as long as the
`Dentries`-order batch buffer is empty. -/
theorem safeInv_of_dirwalk (s' : ToScan) (hph : s'.phase = .DirWalk)
    (hord : s'.order = .Dentries → s'.inode_ordered = []) : SafeInv s' :=
  ⟨fun h => absurd (hph.symm.trans h) (by decide),
   fun h => absurd (hph.symm.trans h) (by decide),
   fun h => ⟨hph, hord h⟩⟩

/-- `SafeInv` transports across operations that change none of phase,
order, batch buffer, or content buffer. -/
theorem safeInv_transport (s s' : ToScan) (hph : s'.phase = s.phase)
    (hord : s'.order = s.order) (hbuf : s'.inode_ordered = s.inode_ordered)
    (hlv : s'.phy_sorted_leaves = s.phy_sorted_leaves) (h : SafeInv s) : SafeInv s' := by
  refine ⟨?_, ?_, ?_⟩
  · intro hh
    rw [hbuf]
    exact h.1 (hph.symm.trans hh)
  · intro hh
    rw [hlv]
    exact h.2.1 (hph.symm.trans hh)
  · intro hh
    obtain ⟨h1, h2⟩ := h.2.2 (hord.symm.trans hh)
    exact ⟨hph.trans h1, hbuf.trans h2⟩

theorem emitOrBuffer_safe (s2 : ToScan) (q : FsPath) (meta : FileType) (ino : Nat)
    (hphase : s2.phase = .DirWalk)
    (hord : s2.order = .Dentries → s2.inode_ordered = []) :
    (emitOrBuffer s2 q meta ino).1 ≠ .crash ∧ SafeInv (emitOrBuffer s2 q meta ino).2 := by
  have hsafe : SafeInv s2 := safeInv_of_dirwalk s2 hphase hord
  simp only [emitOrBuffer]
  split
  · exact ⟨by simp, hsafe⟩
  · rcases horder : s2.order with _ | _ | _
    · simp only [horder]
      exact ⟨by simp, hsafe⟩
    · simp only [horder]
      split
      · split
        · rename_i hdent
          simp at hdent
        · refine ⟨by simp, ?_, ?_, ?_⟩
          · intro _
            show sortByKey (fun d => U64MAX - d.ino)
              (s2.inode_ordered ++ [⟨q, meta, ino, []⟩]) ≠ []
            rw [Ne, sortByKey_eq_nil_iff]
            exact List.append_ne_nil_of_right_ne_nil _ (by simp)
          · intro hc
            simp at hc
          · intro hc
            simp at hc
      · refine ⟨by simp, ?_, ?_, ?_⟩
        · intro hc
          exact absurd (hphase.symm.trans (show s2.phase = Phase.InodePass from hc)) (by simp)
        · intro hc
          exact absurd (hphase.symm.trans (show s2.phase = Phase.ContentPass from hc)) (by simp)
        · intro hc
          simp at hc
    · simp only [horder]
      split
      · split
        · rename_i hdent
          simp at hdent
        · refine ⟨by simp, ?_, ?_, ?_⟩
          · intro _
            show sortByKey (fun d => U64MAX - d.ino)
              (s2.inode_ordered ++ [⟨q, meta, ino, []⟩]) ≠ []
            rw [Ne, sortByKey_eq_nil_iff]
            exact List.append_ne_nil_of_right_ne_nil _ (by simp)
          · intro hc
            simp at hc
          · intro hc
            simp at hc
      · refine ⟨by simp, ?_, ?_, ?_⟩
        · intro hc
          exact absurd (hphase.symm.trans (show s2.phase = Phase.InodePass from hc)) (by simp)
        · intro hc
          exact absurd (hphase.symm.trans (show s2.phase = Phase.ContentPass from hc)) (by simp)
        · intro hc
          simp at hc

theorem processDirent_safe (fs : FS) (s1 : ToScan) (dpath : FsPath) (dent : Dirent)
    (meta : FileType) (hphase : s1.phase = .DirWalk)
    (hord : s1.order = .Dentries → s1.inode_ordered = []) :
    (processDirent fs s1 dpath dent meta).1 ≠ .crash ∧
    SafeInv (processDirent fs s1 dpath dent meta).2 := by
  obtain ⟨q1, q2, q3, q4, q5, q6, q7, q8, q9, q10, q11⟩ :=
    queueDir_state fs s1 (dpath ++ [dent.name]) meta dent.ino
  exact emitOrBuffer_safe _ _ _ _ (q6.trans hphase)
    (fun ho => q4.trans (hord (q7.symm.trans ho)))

theorem dirWalkStep_safe (fs : FS) (s : ToScan) (hphase : s.phase = .DirWalk)
    (hord : s.order = .Dentries → s.inode_ordered = []) :
    (dirWalkStep fs s).1 ≠ .crash ∧ SafeInv (dirWalkStep fs s).2 := by
  obtain ⟨g1, g2, g3, g4, g5, g6, g7⟩ := get_next_state s fs
  simp only [dirWalkStep]
  split
  · -- current_dir = none
    split
    · -- get_next returned none: cursor reset
      refine ⟨by simp, safeInv_of_dirwalk _ (g5.trans hphase) ?_⟩
      intro ho
      exact g3.trans (hord (g6.symm.trans ho))
    · -- get_next returned an entry: open it
      split
      · refine ⟨by simp, safeInv_of_dirwalk _ (g5.trans hphase) ?_⟩
        intro ho
        exact g3.trans (hord (g6.symm.trans ho))
      · refine ⟨by simp, safeInv_of_dirwalk _ (g5.trans hphase) ?_⟩
        intro ho
        exact g3.trans (hord (g6.symm.trans ho))
  · -- current_dir = some (dpath, items)
    split
    · -- items exhausted: close the directory
      exact ⟨by simp, safeInv_of_dirwalk _ hphase hord⟩
    · -- one item
      split
      · -- iteration error
        exact ⟨by simp, safeInv_of_dirwalk _ hphase hord⟩
      · -- a dirent; file_type may fail
        split
        · exact ⟨by simp, safeInv_of_dirwalk _ hphase hord⟩
        · exact processDirent_safe fs _ _ _ _ hphase hord

theorem inodeBlock_safe (fs : FS) (s : ToScan) (h : SafeInv s)
    (hguard : s.phase = .InodePass ∨ (s.is_empty ∧ s.inode_ordered ≠ [])) :
    (inodeBlock fs s).1 ≠ .crash ∧ SafeInv (inodeBlock fs s).2 := by
  have hne : s.inode_ordered ≠ [] := by
    rcases hguard with hg | hg
    · exact h.1 hg
    · exact hg.2
  simp only [inodeBlock, if_neg hne]
  rcases horder : s.order with _ | _ | _
  · exfalso
    exact hne (h.2.2 horder).2
  · -- Order::Inode: pop from the back
    simp only [horder]
    obtain ⟨x, rest, hpop⟩ := popBack_isSome s.inode_ordered hne
    simp only [hpop]
    by_cases hrest : ({ s with inode_ordered := rest } : ToScan).inode_ordered = []
    · rw [if_pos hrest]
      refine ⟨by simp, safeInv_of_dirwalk _ rfl ?_⟩
      intro _
      exact hrest
    · rw [if_neg hrest]
      refine ⟨by simp, ?_, ?_, ?_⟩
      · intro _
        exact hrest
      · intro hc
        exact h.2.1 hc
      · intro ho
        simp [horder] at ho
  · -- Order::Content: drain into phy_sorted_leaves
    simp only [horder]
    have hlv : sortByKey (fun pr => pr.1)
        (s.phy_sorted_leaves ++
          s.inode_ordered.reverse.map (fun e => (contentOffset fs e.path, e))) ≠ [] := by
      rw [Ne, sortByKey_eq_nil_iff]
      exact List.append_ne_nil_of_right_ne_nil _ (by simp [hne])
    rw [if_neg hlv]
    refine ⟨by simp, ?_, ?_, ?_⟩
    · intro hc
      simp at hc
    · intro _
      exact hlv
    · intro ho
      simp [horder] at ho

theorem contentBlock_safe (s : ToScan) (h : SafeInv s)
    (hguard : s.phase = .ContentPass ∨ (s.is_empty ∧ s.phy_sorted_leaves ≠ [])) :
    (contentBlock s).1 ≠ .crash ∧ SafeInv (contentBlock s).2 := by
  have hne : s.phy_sorted_leaves ≠ [] := by
    rcases hguard with hg | hg
    · exact h.2.1 hg
    · exact hg.2
  simp only [contentBlock, if_neg hne]
  obtain ⟨x, rest, hpop⟩ := popBack_isSome s.phy_sorted_leaves hne
  simp only [hpop]
  by_cases hrest : ({ s with phy_sorted_leaves := rest } : ToScan).phy_sorted_leaves = []
  · rw [if_pos hrest]
    refine ⟨by simp, safeInv_of_dirwalk _ rfl ?_⟩
    intro ho
    exact (h.2.2 ho).2
  · rw [if_neg hrest]
    refine ⟨by simp, ?_, ?_, ?_⟩
    · intro hc
      exact h.1 hc
    · intro _
      exact hrest
    · intro ho
      exact ⟨(h.2.2 ho).1, (h.2.2 ho).2⟩

theorem loopStep_safe (fs : FS) (s : ToScan) (h : SafeInv s) :
    (loopStep fs s).1 ≠ .crash ∧ SafeInv (loopStep fs s).2 := by
  simp only [loopStep]
  split
  · rename_i hcond
    exact dirWalkStep_safe fs s hcond.1 (fun ho => (h.2.2 ho).2)
  · split
    · rename_i hguard
      exact inodeBlock_safe fs s h hguard
    · split
      · rename_i hguard
        exact contentBlock_safe s h hguard
      · exact ⟨by simp, h⟩

theorem nextImpl_safe (fs : FS) : ∀ (fuel : Nat) (s : ToScan), SafeInv s →
    (nextImpl fs fuel s).1 ≠ .crashed ∧ SafeInv (nextImpl fs fuel s).2 := by
  intro fuel
  induction fuel with
  | zero =>
    intro s h
    exact ⟨by simp [nextImpl], h⟩
  | succ n ih =>
    intro s h
    have hstep := loopStep_safe fs s h
    rcases hls : loopStep fs s with ⟨out, s1⟩
    rw [hls] at hstep
    simp only [nextImpl, hls]
    cases out with
    | yield x => exact ⟨by simp, hstep.2⟩
    | cont => exact ih s1 hstep.2
    | done => exact ⟨by simp, hstep.2⟩
    | crash => exact absurd rfl hstep.1

/-! ### Structure of the coalescing loop (`ToScan::prefetch`) -/

theorem coalesceAux_chunk : ∀ (xs : List FileExtent) (off en : Nat),
    coalesceAux off en xs =
      (off, chainEnd en (chunkRun en xs).1) :: coalesce (chunkRun en xs).2 := by
  intro xs
  induction xs with
  | nil =>
    intro off en
    simp [coalesceAux, chunkRun, chainEnd, coalesce]
  | cons x xs ih =>
    intro off en
    by_cases h : en < x.physical
    · simp only [coalesceAux, chunkRun, if_pos h]
      simp [chainEnd, coalesce]
    · simp only [coalesceAux, chunkRun, if_neg h]
      rw [ih off (x.physical + x.length)]
      simp [chainEnd]

theorem chunkRun_append : ∀ (l : List FileExtent) (en : Nat),
    (chunkRun en l).1 ++ (chunkRun en l).2 = l := by
  intro l
  induction l with
  | nil => intro en; rfl
  | cons x xs ih =>
    intro en
    by_cases h : en < x.physical
    · simp [chunkRun, if_pos h]
    · simp only [chunkRun, if_neg h]
      simp [ih]

theorem chunkRun_sublist : ∀ (l : List FileExtent) (en : Nat),
    ((chunkRun en l).1).Sublist l := by
  intro l
  induction l with
  | nil =>
    intro en
    simp [chunkRun]
  | cons x xs ih =>
    intro en
    by_cases h : en < x.physical
    · simp [chunkRun, if_pos h]
    · simp only [chunkRun, if_neg h]
      exact List.Sublist.cons₂ x (ih (x.physical + x.length))

theorem chainEnd_last : ∀ (l : List FileExtent) (en : Nat),
    chainEnd en l = (match l.getLast? with
      | some y => y.physical + y.length
      | none => en) := by
  intro l
  induction l with
  | nil => intro en; rfl
  | cons x xs ih =>
    intro en
    cases xs with
    | nil => rfl
    | cons y ys =>
      rw [List.getLast?_cons_cons]
      show chainEnd (x.physical + x.length) (y :: ys) = _
      rw [ih (x.physical + x.length)]
      cases hgl : (y :: ys).getLast? with
      | none => exact absurd (List.getLast?_eq_none_iff.mp hgl) (by simp)
      | some z => rfl

theorem pairwise_le_getLast : ∀ (l : List FileExtent),
    l.Pairwise (fun a b => a.physical ≤ b.physical) →
    ∀ z, l.getLast? = some z → ∀ y ∈ l, y.physical ≤ z.physical := by
  intro l
  induction l with
  | nil =>
    intro _ z hz
    simp at hz
  | cons x xs ih =>
    intro hp z hz y hy
    cases xs with
    | nil =>
      simp at hz hy
      rw [hy, ← hz]
    | cons w ws =>
      rw [List.getLast?_cons_cons] at hz
      have hzmem : z ∈ w :: ws := by
        obtain ⟨hne2, hzeq⟩ :=
          List.mem_getLast?_eq_getLast (l := w :: ws) (x := z) (Option.mem_def.mpr hz)
        rw [hzeq]
        exact List.getLast_mem hne2
      rcases List.mem_cons.mp hy with h1 | h1
      · subst h1
        exact (List.pairwise_cons.mp hp).1 z hzmem
      · exact ih (List.pairwise_cons.mp hp).2 z hz y h1

/-! ### The `DirWalk → InodePass` batch drain (`Order::Inode`) -/

theorem loopStep_inodePop (fs : FS) (s : ToScan) (x : Entry) (rest : List Entry)
    (hphase : s.phase = .InodePass) (hord : s.order = .Inode)
    (hpop : popBack s.inode_ordered = some (x, rest)) :
    loopStep fs s = (.yield (.ok x),
      if rest = [] then { s with inode_ordered := rest, phase := .DirWalk }
      else { s with inode_ordered := rest }) := by
  have hne : s.inode_ordered ≠ [] := by
    intro hnil
    rw [hnil] at hpop
    simp [popBack] at hpop
  have hnotdw : ¬ (s.phase = Phase.DirWalk ∧ ¬ s.is_empty) := by
    rw [hphase]
    simp
  have hguard : s.phase = Phase.InodePass ∨ (s.is_empty ∧ s.inode_ordered ≠ []) :=
    Or.inl hphase
  simp only [loopStep, if_neg hnotdw, if_pos hguard, inodeBlock, if_neg hne, hord, hpop]

theorem inode_drain (fs : FS) : ∀ (n : Nat) (s : ToScan),
    s.phase = .InodePass → s.order = .Inode → s.inode_ordered.length = n →
    s.inode_ordered ≠ [] →
    runScan fs n s = (s.inode_ordered.reverse.map Except.ok,
      { s with inode_ordered := [], phase := .DirWalk }) := by
  intro n
  induction n with
  | zero =>
    intro s _ _ hlen hne
    exact absurd (List.length_eq_zero.mp hlen) hne
  | succ m ih =>
    intro s hphase hord hlen hne
    obtain ⟨x, rest, hpop⟩ := popBack_isSome s.inode_ordered hne
    have hio : s.inode_ordered = rest ++ [x] := popBack_eq_some _ _ _ hpop
    have hstep := loopStep_inodePop fs s x rest hphase hord hpop
    by_cases hrest : rest = []
    · subst hrest
      have hm : m = 0 := by
        rw [hio] at hlen
        simp at hlen
        omega
      subst hm
      show runScan fs 1 s = _
      simp only [runScan, hstep]
      rw [hio]
      simp [runScan]
    · have hstep2 : loopStep fs s = (.yield (.ok x), { s with inode_ordered := rest }) := by
        rw [hstep, if_neg hrest]
      have hlen2 : ({ s with inode_ordered := rest } : ToScan).inode_ordered.length = m := by
        show rest.length = m
        rw [hio] at hlen
        simp at hlen
        omega
      have ihs := ih { s with inode_ordered := rest } hphase hord hlen2 hrest
      show runScan fs (m + 1) s = _
      simp only [runScan, hstep2]
      rw [ihs, hio]
      simp [List.reverse_append]

/-! ### Tree-model lemmas: path resolution -/

theorem lookupNode_nil (t : FNode) : lookupNode t [] = some t := by
  cases t <;> simp [lookupNode]

theorem lookupNode_append : ∀ (p : FsPath) (t : FNode) (q : FsPath),
    lookupNode t (p ++ q) = (lookupNode t p).bind (fun n => lookupNode n q) := by
  intro p
  induction p with
  | nil =>
    intro t q
    rw [List.nil_append, lookupNode_nil, Option.some_bind]
  | cons name rest ih =>
    intro t q
    cases t with
    | dir ino items =>
      rw [List.cons_append]
      simp only [lookupNode]
      induction items with
      | nil => simp [lookupItems]
      | cons it its ih2 =>
        cases it with
        | iterErr c => simp only [lookupItems]; exact ih2
        | child nm c =>
          simp only [lookupItems]
          by_cases h : nm = name
          · rw [if_pos h, if_pos h]
            exact ih c q
          · rw [if_neg h, if_neg h]
            exact ih2
    | ftErr c i => simp [lookupNode]
    | file i => simp [lookupNode]
    | dirFail i c => simp [lookupNode]

theorem mem_childNames (name : String) (c : FNode) :
    ∀ (items : List DirItem), DirItem.child name c ∈ items → name ∈ childNames items := by
  intro items
  induction items with
  | nil => intro h; simp at h
  | cons it its ih =>
    intro h
    rcases List.mem_cons.mp h with h1 | h1
    · rw [← h1]
      simp [childNames]
    · cases it with
      | iterErr e => simp only [childNames]; exact ih h1
      | child nm c2 => simp only [childNames]; exact List.mem_cons_of_mem nm (ih h1)

theorem lookupItems_of_mem (name : String) (c : FNode) :
    ∀ (items : List DirItem), (childNames items).Nodup →
      DirItem.child name c ∈ items → lookupItems items name [] = some c := by
  intro items
  induction items with
  | nil => intro _ h; simp at h
  | cons it its ih =>
    intro hnd hmem
    rcases List.mem_cons.mp hmem with h1 | h1
    · rw [← h1]
      simp [lookupItems, lookupNode_nil]
    · cases it with
      | iterErr e =>
        simp only [childNames] at hnd
        simp only [lookupItems]
        exact ih hnd h1
      | child nm c2 =>
        simp only [childNames, List.nodup_cons] at hnd
        simp only [lookupItems]
        have hne : nm ≠ name := by
          intro he
          exact hnd.1 (he ▸ mem_childNames name c its h1)
        rw [if_neg hne]
        exact ih hnd.2 h1

theorem wfNode_dir {ino : Nat} {items : List DirItem} (h : wfNode (.dir ino items) = true) :
    (childNames items).Nodup ∧ wfItems items = true := by
  simp only [wfNode, Bool.and_eq_true, decide_eq_true_eq] at h
  exact h

theorem wfItems_mem : ∀ (items : List DirItem) (name : String) (c : FNode),
    wfItems items = true → DirItem.child name c ∈ items → wfNode c = true := by
  intro items
  induction items with
  | nil => intro _ _ _ h; simp at h
  | cons it its ih =>
    intro name c hwf hmem
    rcases List.mem_cons.mp hmem with h1 | h1
    · cases it with
      | iterErr e => exact absurd h1 (by simp)
      | child nm c2 =>
        simp only [wfItems, Bool.and_eq_true] at hwf
        obtain ⟨he1, he2⟩ := DirItem.child.inj h1.symm
        rw [← he2]
        exact hwf.1
    · cases it with
      | iterErr e =>
        simp only [wfItems] at hwf
        exact ih name c hwf h1
      | child nm c2 =>
        simp only [wfItems, Bool.and_eq_true] at hwf
        exact ih name c hwf.2 h1

theorem wf_lookup : ∀ (p : FsPath) (t n : FNode), wfNode t = true →
    lookupNode t p = some n → wfNode n = true := by
  intro p
  induction p with
  | nil =>
    intro t n hw hl
    rw [lookupNode_nil, Option.some.injEq] at hl
    rw [← hl]
    exact hw
  | cons name rest ih =>
    intro t n hw hl
    cases t with
    | dir ino items =>
      simp only [lookupNode] at hl
      have hwi : wfItems items = true := (wfNode_dir hw).2
      have key : ∀ (its : List DirItem), wfItems its = true →
          lookupItems its name rest = some n → wfNode n = true := by
        intro its
        induction its with
        | nil => intro _ h; simp [lookupItems] at h
        | cons it its2 ih2 =>
          intro hwf hli
          cases it with
          | iterErr e =>
            simp only [lookupItems] at hli
            simp only [wfItems] at hwf
            exact ih2 hwf hli
          | child nm c =>
            simp only [lookupItems] at hli
            simp only [wfItems, Bool.and_eq_true] at hwf
            by_cases h : nm = name
            · rw [if_pos h] at hli
              exact ih c n hwf.1 hli
            · rw [if_neg h] at hli
              exact ih2 hwf.2 hli
      exact key items hwi hl
    | ftErr c i => simp [lookupNode] at hl
    | file i => simp [lookupNode] at hl
    | dirFail i c => simp [lookupNode] at hl

/-- At a directory node of a well-formed tree, every child item's path
resolves to that child. -/
theorem dirent_of_item (t : FNode) (hwf : wfNode t = true) (p : FsPath) (dino : Nat)
    (items₀ : List DirItem) (hl : lookupNode t p = some (.dir dino items₀))
    (name : String) (c : FNode) (hmem : DirItem.child name c ∈ items₀) :
    lookupNode t (p ++ [name]) = some c := by
  have hwd : wfNode (.dir dino items₀) = true := wf_lookup p t _ hwf hl
  rw [lookupNode_append, hl, Option.some_bind]
  simp only [lookupNode]
  exact lookupItems_of_mem name c items₀ (wfNode_dir hwd).1 hmem

/-- On an item of a resolved directory's listing, the per-dirent account
functions compute exactly the per-item tree functions. -/
theorem direntRes_of_item (t : FNode) (hwf : wfNode t = true)
    (f : Option (FsPath → FileType → Bool)) (p : FsPath) (dino : Nat)
    (items₀ : List DirItem) (hl : lookupNode t p = some (.dir dino items₀))
    (it : DirItem) (hmem : it ∈ items₀) :
    direntResEmits t f p (direntResOf it) = itemEmits f it p ∧
    direntResErrs t p (direntResOf it) = itemErrs it ∧
    direntResW t p (direntResOf it) = itemW it := by
  cases it with
  | iterErr c =>
    refine ⟨?_, ?_, ?_⟩ <;>
      simp [direntResOf, direntResEmits, direntResErrs, direntResW,
        itemEmits, itemErrs, itemW]
  | child name c =>
    have hlc := dirent_of_item t hwf p dino items₀ hl name c hmem
    refine ⟨?_, ?_, ?_⟩ <;>
      simp [direntResOf, direntResEmits, direntResErrs, direntResW, hlc,
        itemEmits, itemErrs, itemW]

/-- Summing the per-dirent accounts over the stream of a sub-listing. -/
theorem listing_sums (t : FNode) (hwf : wfNode t = true)
    (f : Option (FsPath → FileType → Bool)) (p : FsPath) (dino : Nat)
    (items₀ : List DirItem) (hl : lookupNode t p = some (.dir dino items₀)) :
    ∀ (items₁ : List DirItem), items₁ ⊆ items₀ →
    ((listingOf items₁).map (direntResEmits t f p)).sum = itemsEmits f items₁ p ∧
    ((listingOf items₁).map (direntResErrs t p)).sum = itemsErrs items₁ ∧
    ((listingOf items₁).map (direntResW t p)).sum = itemsW items₁ := by
  intro items₁
  induction items₁ with
  | nil =>
    intro _
    refine ⟨?_, ?_, ?_⟩ <;> simp [listingOf, itemsEmits, itemsErrs, itemsW]
  | cons it its ih =>
    intro hsub
    have hmem : it ∈ items₀ := hsub (List.mem_cons_self it its)
    have hsub2 : its ⊆ items₀ := fun x hx => hsub (List.mem_cons_of_mem it hx)
    obtain ⟨e1, e2, e3⟩ := direntRes_of_item t hwf f p dino items₀ hl it hmem
    obtain ⟨i1, i2, i3⟩ := ih hsub2
    simp only [listingOf, List.map_cons, List.sum_cons] at i1 i2 i3 ⊢
    simp only [itemsEmits, itemsErrs, itemsW]
    exact ⟨by rw [e1, i1], by rw [e2, i2], by rw [e3, i3]⟩

/-! ### Emitted-path shape: every emission strictly extends its base path -/

theorem under_clash {p : FsPath} {a b : String} {x : FsPath}
    (h1 : ∃ s, x = p ++ a :: s) (h2 : ∃ s, x = p ++ b :: s) : a = b := by
  obtain ⟨s1, e1⟩ := h1
  obtain ⟨s2, e2⟩ := h2
  rw [e1] at e2
  have h3 := List.append_cancel_left e2
  exact (List.cons.inj h3).1

mutual
theorem mem_nodeEmits (f : Option (FsPath → FileType → Bool)) :
    ∀ (n : FNode) (p x : FsPath), x ∈ nodeEmits f n p → ∃ nm s, x = p ++ nm :: s
  | .dir ino items, p, x, hx => by
    obtain ⟨nm, s, _, he⟩ := mem_itemsEmits f items p x (by simpa [nodeEmits] using hx)
    exact ⟨nm, s, he⟩
  | .ftErr c i, p, x, hx => by simp [nodeEmits] at hx
  | .file i, p, x, hx => by simp [nodeEmits] at hx
  | .dirFail i c, p, x, hx => by simp [nodeEmits] at hx

theorem mem_itemsEmits (f : Option (FsPath → FileType → Bool)) :
    ∀ (its : List DirItem) (p x : FsPath), x ∈ itemsEmits f its p →
    ∃ nm s, nm ∈ childNames its ∧ x = p ++ nm :: s
  | [], p, x, hx => by simp [itemsEmits] at hx
  | it :: its, p, x, hx => by
    rcases Multiset.mem_add.mp (by simpa [itemsEmits] using hx) with h | h
    · obtain ⟨nm, c, s, hit, he⟩ := mem_itemEmits f it p x h
      refine ⟨nm, s, ?_, he⟩
      rw [hit]
      simp [childNames]
    · obtain ⟨nm, s, hmem, he⟩ := mem_itemsEmits f its p x h
      refine ⟨nm, s, ?_, he⟩
      cases it with
      | iterErr c => simpa [childNames] using hmem
      | child nm2 c2 =>
        simp only [childNames]
        exact List.mem_cons_of_mem nm2 hmem

theorem mem_itemEmits (f : Option (FsPath → FileType → Bool)) :
    ∀ (it : DirItem) (p x : FsPath), x ∈ itemEmits f it p →
    ∃ nm c s, it = .child nm c ∧ x = p ++ nm :: s
  | .iterErr c, p, x, hx => by simp [itemEmits] at hx
  | .child name n, p, x, hx => by
    rcases Multiset.mem_add.mp (by simpa [itemEmits] using hx) with h | h
    · refine ⟨name, n, [], rfl, ?_⟩
      cases hft : nodeFt n with
      | error c2 => simp only [hft] at h; simp at h
      | ok ft =>
        simp only [hft] at h
        by_cases hsk : skipByFilter f (p ++ [name]) ft
        · simp [hsk] at h
        · simp only [hsk, if_neg] at h
          simp [hsk] at h
          exact h
    · obtain ⟨nm2, s2, he⟩ := mem_nodeEmits f n (p ++ [name]) x h
      refine ⟨name, n, nm2 :: s2, rfl, ?_⟩
      rw [he]
      simp
end

/-! ### No path is emitted twice (well-formed trees) -/

mutual
theorem nodeEmits_nodup (f : Option (FsPath → FileType → Bool)) :
    ∀ (n : FNode) (p : FsPath), wfNode n = true → (nodeEmits f n p).Nodup
  | .dir ino items, p, hw => by
    have h := wfNode_dir hw
    simpa [nodeEmits] using itemsEmits_nodup f items p h.2 h.1
  | .ftErr c i, p, _ => by simp [nodeEmits]
  | .file i, p, _ => by simp [nodeEmits]
  | .dirFail i c, p, _ => by simp [nodeEmits]

theorem itemsEmits_nodup (f : Option (FsPath → FileType → Bool)) :
    ∀ (its : List DirItem) (p : FsPath), wfItems its = true →
      (childNames its).Nodup → (itemsEmits f its p).Nodup
  | [], p, _, _ => by simp [itemsEmits]
  | .iterErr c :: its, p, hw, hnd => by
    simp only [wfItems] at hw
    simp only [childNames] at hnd
    have h := itemsEmits_nodup f its p hw hnd
    simpa [itemsEmits, itemEmits] using h
  | .child name c :: its, p, hw, hnd => by
    simp only [wfItems, Bool.and_eq_true] at hw
    simp only [childNames, List.nodup_cons] at hnd
    simp only [itemsEmits]
    rw [Multiset.nodup_add]
    refine ⟨itemEmits_nodup f (.child name c) p
        (fun nm c2 hh => by
          obtain ⟨e1, e2⟩ := DirItem.child.inj hh
          rw [← e2]
          exact hw.1),
      itemsEmits_nodup f its p hw.2 hnd.2, Multiset.disjoint_left.mpr ?_⟩
    intro x hx1 hx2
    obtain ⟨nm1, c1, s1, hit, he1⟩ := mem_itemEmits f _ p x hx1
    obtain ⟨he3, _⟩ := DirItem.child.inj hit
    obtain ⟨nm2, s2, hm2, he2⟩ := mem_itemsEmits f its p x hx2
    have hnn : nm1 = nm2 := under_clash ⟨s1, he1⟩ ⟨s2, he2⟩
    refine hnd.1 ?_
    rw [he3, hnn]
    exact hm2

theorem itemEmits_nodup (f : Option (FsPath → FileType → Bool)) :
    ∀ (it : DirItem) (p : FsPath),
      (∀ nm c, it = .child nm c → wfNode c = true) → (itemEmits f it p).Nodup
  | .iterErr c, p, _ => by simp [itemEmits]
  | .child name n, p, hw => by
    have hwn : wfNode n = true := hw name n rfl
    simp only [itemEmits]
    rw [Multiset.nodup_add]
    refine ⟨?_, nodeEmits_nodup f n (p ++ [name]) hwn, Multiset.disjoint_left.mpr ?_⟩
    · cases hft : nodeFt n with
      | error c2 => simp
      | ok ft =>
        by_cases hsk : skipByFilter f (p ++ [name]) ft
        · simp [hsk]
        · simp [hsk]
    · intro x hx1 hx2
      obtain ⟨nm2, s2, he⟩ := mem_nodeEmits f n (p ++ [name]) x hx2
      have hxe : x = p ++ [name] := by
        cases hft : nodeFt n with
        | error c2 => simp only [hft] at hx1; simp at hx1
        | ok ft =>
          simp only [hft] at hx1
          by_cases hsk : skipByFilter f (p ++ [name]) ft
          · simp [hsk] at hx1
          · simp [hsk] at hx1
            exact hx1
      rw [hxe] at he
      have hlen := congrArg List.length he
      simp [List.length_append] at hlen
end

/-! ### Queue-multiset lemmas -/

theorem lookupKey_of_mem_sorted : ∀ {m : List (Nat × Entry)} {k : Nat} {v : Entry},
    KeysSorted m → (k, v) ∈ m → lookupKey k m = some v := by
  intro m
  induction m with
  | nil => intro k v _ hmem; simp at hmem
  | cons kv rest ih =>
    intro k v hs hmem
    have hhead := (List.pairwise_cons.mp hs).1
    have hrest : KeysSorted rest := (List.pairwise_cons.mp hs).2
    rcases List.mem_cons.mp hmem with h1 | h1
    · rw [← h1]
      simp [lookupKey]
    · simp only [lookupKey]
      by_cases h2 : k = kv.1
      · exfalso
        have h3 : kv.1 < k := hhead (k, v) h1
        omega
      · rw [if_neg h2]
        exact ih hrest h1

theorem eraseKey_subset {k : Nat} : ∀ (m : List (Nat × Entry)), eraseKey k m ⊆ m := by
  intro m
  induction m with
  | nil => simp [eraseKey]
  | cons kv rest ih =>
    simp only [eraseKey]
    by_cases h : k = kv.1
    · rw [if_pos h]
      exact List.subset_cons_self kv rest
    · rw [if_neg h]
      exact List.cons_subset_cons kv ih

theorem findGE_zero {m : List (Nat × Entry)} (hne : m ≠ [])
    (hb : ∀ kv ∈ m, kv.1 ≤ U64MAX) : findGE 0 m ≠ none := by
  cases m with
  | nil => exact absurd rfl hne
  | cons kv rest =>
    simp only [findGE]
    rw [if_pos ⟨Nat.zero_le _, hb kv (List.mem_cons_self kv rest)⟩]
    simp

/-- `BTreeMap::insert` as a value multiset: new values are old values
plus the inserted one minus the displaced occupant. -/
theorem btInsert_val_mset (k : Nat) (v : Entry) : ∀ (m : List (Nat × Entry)),
    (((btInsert k v m).1.map Prod.snd : List Entry) : Multiset Entry) +
      optMset (btInsert k v m).2 =
    v ::ₘ ((m.map Prod.snd : List Entry) : Multiset Entry) := by
  intro m
  induction m with
  | nil => simp [btInsert, optMset]
  | cons kv rest ih =>
    simp only [btInsert]
    by_cases h1 : k < kv.1
    · rw [if_pos h1]
      simp [optMset]
    · rw [if_neg h1]
      by_cases h2 : k = kv.1
      · rw [if_pos h2]
        simp only [optMset, List.map_cons, ← Multiset.cons_coe, Multiset.cons_add,
          ← Multiset.singleton_add]
        simp [add_comm, add_left_comm]
        exact List.Perm.swap _ _ _
      · rw [if_neg h2]
        simp only [List.map_cons, ← Multiset.cons_coe, Multiset.cons_add]
        rw [ih]
        simp only [← Multiset.singleton_add]
        simp [add_comm, add_left_comm]
        exact List.Perm.swap _ _ _

/-- `ToScan::add` as a queue multiset: the queued-entry multiset gains
exactly the added entry, and the `BTreeMap` model stays key-sorted with
`u64` keys. -/
theorem add_mset (s : ToScan) (e : Entry) (pos : Option Nat)
    (hks : KeysSorted s.phy_sorted) (hb : ∀ kv ∈ s.phy_sorted, kv.1 ≤ U64MAX)
    (hpos : ∀ k, pos = some k → k ≤ U64MAX) :
    qMset (s.add e pos) = e ::ₘ qMset s ∧ KeysSorted (s.add e pos).phy_sorted ∧
    (∀ kv ∈ (s.add e pos).phy_sorted, kv.1 ≤ U64MAX) := by
  cases pos with
  | none =>
    simp only [ToScan.add]
    refine ⟨?_, hks, hb⟩
    simp only [qMset]
    simp only [← Multiset.cons_coe, ← Multiset.singleton_add]
    simp [add_comm, add_left_comm]
  | some k =>
    have hkb : k ≤ U64MAX := hpos k rfl
    have hvm := btInsert_val_mset k e s.phy_sorted
    have hsort := btInsert_keysSorted k e s.phy_sorted hks
    have hbnd : ∀ kv ∈ (btInsert k e s.phy_sorted).1, kv.1 ≤ U64MAX := by
      intro kv hkv
      rcases btInsert_mem k e s.phy_sorted kv hkv with h | h
      · rw [h]
        exact hkb
      · exact hb kv h
    simp only [ToScan.add]
    cases hr : (btInsert k e s.phy_sorted).2 with
    | some old =>
      rw [hr] at hvm
      simp only [hr]
      refine ⟨?_, hsort, hbnd⟩
      simp only [qMset]
      simp only [optMset] at hvm
      rw [Multiset.coe_add]
      calc ((s.unordered : Multiset Entry) + ↑([old] : List Entry)) +
            ↑(List.map Prod.snd (btInsert k e s.phy_sorted).1)
          = (s.unordered : Multiset Entry) +
              (↑(List.map Prod.snd (btInsert k e s.phy_sorted).1) + {old}) := by
            have hcoe : (↑([old] : List Entry) : Multiset Entry) = {old} := by simp
            rw [hcoe, add_assoc, add_comm ({old} : Multiset Entry)]
        _ = (s.unordered : Multiset Entry) + (e ::ₘ ↑(List.map Prod.snd s.phy_sorted)) := by
            rw [hvm]
        _ = e ::ₘ ((s.unordered : Multiset Entry) + ↑(List.map Prod.snd s.phy_sorted)) := by
            rw [← Multiset.singleton_add, ← Multiset.singleton_add]
            rw [← add_assoc, add_comm (s.unordered : Multiset Entry), add_assoc]
    | none =>
      rw [hr] at hvm
      simp only [hr]
      refine ⟨?_, hsort, hbnd⟩
      simp only [qMset]
      simp only [optMset, add_zero] at hvm
      rw [hvm]
      simp only [← Multiset.cons_coe, ← Multiset.singleton_add]
      simp [add_comm, add_left_comm]

/-- `ToScan::get_next` as a queue multiset: it returns `none` exactly on
the wrap condition, leaving the queues alone; otherwise it removes
exactly one queued entry. -/
theorem get_next_mset (s : ToScan) (fs : FS) (hks : KeysSorted s.phy_sorted) :
    ((s.get_next fs).1 = none ∧ (s.get_next fs).2.unordered = s.unordered ∧
      (s.get_next fs).2.phy_sorted = s.phy_sorted ∧ (s.get_next fs).2.cursor = s.cursor ∧
      s.unordered = [] ∧ findGE s.cursor s.phy_sorted = none) ∨
    (∃ e, (s.get_next fs).1 = some e ∧ e ∈ qMset s ∧
      e ::ₘ qMset (s.get_next fs).2 = qMset s ∧
      ((s.get_next fs).2.phy_sorted = s.phy_sorted ∨
        ∃ k, (s.get_next fs).2.phy_sorted = eraseKey k s.phy_sorted)) := by
  obtain ⟨hp1, hp2, hp3, hp4, hp5, hp6, hp7, hp8, hp9, hp10, hp11⟩ := prefetch_state s fs
  cases hu : s.unordered with
  | cons e rest =>
    right
    have hu0 : ((s.prefetch fs).1).unordered = e :: rest := by rw [hp3, hu]
    have hgn : s.get_next fs = (some e,
        ToScan.remove_prefetch { (s.prefetch fs).1 with unordered := rest } (some e)) := by
      simp only [ToScan.get_next, hu0]
    obtain ⟨hr1, hr2, hr3, hr4, hr5, hr6, hr7, hr8, hr9, hr10, hr11⟩ :=
      remove_prefetch_state { (s.prefetch fs).1 with unordered := rest } (some e)
    have hphy : (s.get_next fs).2.phy_sorted = s.phy_sorted := by
      rw [hgn]
      exact hr1.trans hp1
    have hun : (s.get_next fs).2.unordered = rest := by
      rw [hgn]
      exact hr3
    refine ⟨e, by rw [hgn], ?_, ?_, Or.inl hphy⟩
    · simp only [qMset]
      rw [Multiset.mem_add]
      refine Or.inl (Multiset.mem_coe.mpr ?_)
      rw [hu]
      exact List.mem_cons_self e rest
    · simp only [qMset, hphy, hun, hu]
      rw [← Multiset.cons_coe, Multiset.cons_add]
  | nil =>
    cases hf : findGE s.cursor s.phy_sorted with
    | some kv =>
      right
      have hu0 : ((s.prefetch fs).1).unordered = [] := by rw [hp3, hu]
      have hf0 : findGE ((s.prefetch fs).1).cursor ((s.prefetch fs).1).phy_sorted
          = some kv := by
        rw [hp4, hp1, hf]
      have hgn : s.get_next fs = (some kv.2,
          ToScan.remove_prefetch
            { (s.prefetch fs).1 with
                unordered := []
                cursor := kv.1
                phy_sorted := eraseKey kv.1 ((s.prefetch fs).1).phy_sorted } (some kv.2)) := by
        simp only [ToScan.get_next, hu0, hf0]
      obtain ⟨hr1, hr2, hr3, hr4, hr5, hr6, hr7, hr8, hr9, hr10, hr11⟩ :=
        remove_prefetch_state
          { (s.prefetch fs).1 with
              unordered := []
              cursor := kv.1
              phy_sorted := eraseKey kv.1 ((s.prefetch fs).1).phy_sorted } (some kv.2)
      obtain ⟨hmem, hcle, hbk⟩ := findGE_some hf
      have hphy : (s.get_next fs).2.phy_sorted = eraseKey kv.1 s.phy_sorted := by
        rw [hgn, hr1]
        show eraseKey kv.1 ((s.prefetch fs).1).phy_sorted = eraseKey kv.1 s.phy_sorted
        rw [hp1]
      have hun : (s.get_next fs).2.unordered = [] := by
        rw [hgn]
        exact hr3
      have hlk : lookupKey kv.1 s.phy_sorted = some kv.2 :=
        lookupKey_of_mem_sorted hks hmem
      have hperm := eraseKey_perm s.phy_sorted hks hlk
      refine ⟨kv.2, by rw [hgn], ?_, ?_, Or.inr ⟨kv.1, hphy⟩⟩
      · simp only [qMset]
        rw [Multiset.mem_add]
        exact Or.inr (Multiset.mem_coe.mpr (List.mem_map.mpr ⟨kv, hmem, rfl⟩))
      · simp only [qMset, hphy, hun, hu]
        have hm2 : ((s.phy_sorted.map Prod.snd : List Entry) : Multiset Entry) =
            kv.2 ::ₘ ↑((eraseKey kv.1 s.phy_sorted).map Prod.snd) := by
          rw [Multiset.coe_eq_coe.mpr (hperm.map Prod.snd)]
          simp only [List.map_cons, ← Multiset.cons_coe]
        rw [hm2]
        simp
    | none =>
      left
      have hu0 : ((s.prefetch fs).1).unordered = [] := by rw [hp3, hu]
      have hf0 : findGE ((s.prefetch fs).1).cursor ((s.prefetch fs).1).phy_sorted = none := by
        rw [hp4, hp1, hf]
      have hgn : s.get_next fs = (none, (s.prefetch fs).1) := by
        simp only [ToScan.get_next, hu0, hf0]
      rw [hgn]
      exact ⟨rfl, hu0, hp1, hp4, rfl, rfl⟩

/-! ### Congruence of the state accounts in the touched fields -/

theorem qMset_fields (s s2 : ToScan) (h1 : s2.unordered = s.unordered)
    (h2 : s2.phy_sorted = s.phy_sorted) : qMset s2 = qMset s := by
  simp only [qMset, h1, h2]

theorem EState_fields (t : FNode) (f : Option (FsPath → FileType → Bool)) (s s2 : ToScan)
    (h1 : qMset s2 = qMset s) (h2 : s2.current_dir = s.current_dir)
    (h3 : s2.inode_ordered = s.inode_ordered)
    (h4 : s2.phy_sorted_leaves = s.phy_sorted_leaves) :
    EState t f s2 = EState t f s := by
  simp only [EState, h1, h2, h3, h4]

theorem FState_fields (t : FNode) (s s2 : ToScan)
    (h1 : qMset s2 = qMset s) (h2 : s2.current_dir = s.current_dir) :
    FState t s2 = FState t s := by
  simp only [FState, h1, h2]

theorem WState_fields (t : FNode) (s s2 : ToScan)
    (h1 : qMset s2 = qMset s) (h2 : s2.current_dir = s.current_dir)
    (h3 : s2.inode_ordered.length = s.inode_ordered.length)
    (h4 : s2.phy_sorted_leaves.length = s.phy_sorted_leaves.length) :
    WState t s2 = WState t s := by
  simp only [WState, h1, h2, h3, h4]

theorem stuckB_le_one (s : ToScan) : stuckB s ≤ 1 := by
  unfold stuckB
  split <;> omega

theorem mstate_lt_of_w (t : FNode) (s2 s : ToScan) (h : WState t s2 < WState t s) :
    MState t s2 < MState t s := by
  have h1 := stuckB_le_one s2
  unfold MState
  omega

/-! ### Case analyses of the dirent-processing helpers -/

/-- `queueDir` either leaves the state alone (non-directory) or queues
exactly one entry at the discovered path, preserving map shape. -/
theorem queueDir_cases (fs : FS) (s1 : ToScan) (q : FsPath) (meta : FileType) (ino : Nat)
    (hks : KeysSorted s1.phy_sorted) (hb : ∀ kv ∈ s1.phy_sorted, kv.1 ≤ U64MAX)
    (hext : extOk (fs.extentMap q)) :
    (meta.is_dir = false ∧ queueDir fs s1 q meta ino = s1) ∨
    (meta.is_dir = true ∧ ∃ ex,
      qMset (queueDir fs s1 q meta ino) = (⟨q, meta, ino, ex⟩ : Entry) ::ₘ qMset s1 ∧
      KeysSorted (queueDir fs s1 q meta ino).phy_sorted ∧
      (∀ kv ∈ (queueDir fs s1 q meta ino).phy_sorted, kv.1 ≤ U64MAX)) := by
  by_cases hd : meta.is_dir
  · right
    refine ⟨hd, ?_⟩
    simp only [queueDir, if_pos hd]
    cases hem : fs.extentMap q with
    | ok extents =>
      cases extents with
      | nil =>
        exact ⟨[], add_mset s1 _ none hks hb (fun k h => by simp at h)⟩
      | cons e0 erest =>
        refine ⟨e0 :: erest, ?_⟩
        refine add_mset s1 _ (some e0.physical) hks hb ?_
        intro k hk
        rw [Option.some.injEq] at hk
        rw [← hk]
        simp only [extOk, hem] at hext
        exact hext e0 (List.mem_cons_self e0 erest)
    | error c =>
      exact ⟨[], add_mset s1 _ none hks hb (fun k h => by simp at h)⟩
  · left
    exact ⟨by simpa using hd, by simp [queueDir, hd]⟩

/-- `emitOrBuffer` either skips (prefilter), yields the entry at once
(`Dentries`), or appends it to the batch buffer — possibly sorting the
buffer and flipping the phase, which preserves the buffer's path
multiset and length. -/
theorem emitOrBuffer_cases (s2 : ToScan) (q : FsPath) (meta : FileType) (ino : Nat) :
    (skipByFilter s2.prefilter q meta = true ∧ emitOrBuffer s2 q meta ino = (.cont, s2)) ∨
    (skipByFilter s2.prefilter q meta = false ∧
      emitOrBuffer s2 q meta ino = (.yield (.ok ⟨q, meta, ino, []⟩), s2)) ∨
    (skipByFilter s2.prefilter q meta = false ∧ s2.order ≠ .Dentries ∧
      (emitOrBuffer s2 q meta ino).1 = .cont ∧
      (((emitOrBuffer s2 q meta ino).2.inode_ordered.map Entry.path :
          List FsPath) : Multiset FsPath) =
        q ::ₘ ↑(s2.inode_ordered.map Entry.path) ∧
      (emitOrBuffer s2 q meta ino).2.inode_ordered.length = s2.inode_ordered.length + 1 ∧
      (emitOrBuffer s2 q meta ino).2.phy_sorted = s2.phy_sorted ∧
      (emitOrBuffer s2 q meta ino).2.unordered = s2.unordered ∧
      (emitOrBuffer s2 q meta ino).2.phy_sorted_leaves = s2.phy_sorted_leaves ∧
      (emitOrBuffer s2 q meta ino).2.current_dir = s2.current_dir ∧
      (emitOrBuffer s2 q meta ino).2.cursor = s2.cursor ∧
      (emitOrBuffer s2 q meta ino).2.prefilter = s2.prefilter ∧
      (emitOrBuffer s2 q meta ino).2.order = s2.order) := by
  by_cases hsk : skipByFilter s2.prefilter q meta
  · left
    exact ⟨hsk, by simp [emitOrBuffer, hsk]⟩
  · have hsk2 : skipByFilter s2.prefilter q meta = false := by simpa using hsk
    cases ho : s2.order with
    | Dentries =>
      right
      left
      refine ⟨hsk2, ?_⟩
      simp [emitOrBuffer, hsk2, ho]
    | Inode =>
      right
      right
      refine ⟨hsk2, by simp, ?_⟩
      by_cases hth : s2.batch_size ≤ (s2.inode_ordered ++ [(⟨q, meta, ino, []⟩ : Entry)]).length
      · have hstep : emitOrBuffer s2 q meta ino =
            (.cont, { s2 with
              phase := .InodePass
              inode_ordered := sortByKey (fun d => U64MAX - d.ino)
                (s2.inode_ordered ++ [⟨q, meta, ino, []⟩]) }) := by
          simp only [emitOrBuffer, hsk2, ho]
          simp [hth]
          intro hcon
          exfalso
          simp [List.length_append] at hth
          omega
        have hperm := sortByKey_perm (fun d : Entry => U64MAX - d.ino)
          (s2.inode_ordered ++ [(⟨q, meta, ino, []⟩ : Entry)])
        rw [hstep]
        refine ⟨rfl, ?_, ?_, rfl, rfl, rfl, rfl, rfl, rfl, ho⟩
        · rw [Multiset.coe_eq_coe.mpr (hperm.map Entry.path)]
          simp only [List.map_append, List.map_cons, List.map_nil]
          exact Multiset.coe_eq_coe.mpr (List.perm_append_singleton q _)
        · rw [sortByKey_length]
          simp
      · have hstep : emitOrBuffer s2 q meta ino =
            (.cont, { s2 with
              inode_ordered := s2.inode_ordered ++ [⟨q, meta, ino, []⟩] }) := by
          simp only [emitOrBuffer, hsk2, ho]
          simp [hth]
          intro hcon
          exfalso
          simp [List.length_append] at hth
          omega
        rw [hstep]
        refine ⟨rfl, ?_, ?_, rfl, rfl, rfl, rfl, rfl, rfl, ho⟩
        · simp only [List.map_append, List.map_cons, List.map_nil]
          exact Multiset.coe_eq_coe.mpr (List.perm_append_singleton q _)
        · simp
    | Content =>
      right
      right
      refine ⟨hsk2, by simp, ?_⟩
      by_cases hth : s2.batch_size ≤ (s2.inode_ordered ++ [(⟨q, meta, ino, []⟩ : Entry)]).length
      · have hstep : emitOrBuffer s2 q meta ino =
            (.cont, { s2 with
              phase := .InodePass
              inode_ordered := sortByKey (fun d => U64MAX - d.ino)
                (s2.inode_ordered ++ [⟨q, meta, ino, []⟩]) }) := by
          simp only [emitOrBuffer, hsk2, ho]
          simp [hth]
          intro hcon
          exfalso
          simp [List.length_append] at hth
          omega
        have hperm := sortByKey_perm (fun d : Entry => U64MAX - d.ino)
          (s2.inode_ordered ++ [(⟨q, meta, ino, []⟩ : Entry)])
        rw [hstep]
        refine ⟨rfl, ?_, ?_, rfl, rfl, rfl, rfl, rfl, rfl, ho⟩
        · rw [Multiset.coe_eq_coe.mpr (hperm.map Entry.path)]
          simp only [List.map_append, List.map_cons, List.map_nil]
          exact Multiset.coe_eq_coe.mpr (List.perm_append_singleton q _)
        · rw [sortByKey_length]
          simp
      · have hstep : emitOrBuffer s2 q meta ino =
            (.cont, { s2 with
              inode_ordered := s2.inode_ordered ++ [⟨q, meta, ino, []⟩] }) := by
          simp only [emitOrBuffer, hsk2, ho]
          simp [hth]
          intro hcon
          exfalso
          simp [List.length_append] at hth
          omega
        rw [hstep]
        refine ⟨rfl, ?_, ?_, rfl, rfl, rfl, rfl, rfl, rfl, ho⟩
        · simp only [List.map_append, List.map_cons, List.map_nil]
          exact Multiset.coe_eq_coe.mpr (List.perm_append_singleton q _)
        · simp

/-! ### Delta lemmas for the pending-emission accounts -/

theorem msum_cons {γ : Type} [AddCommMonoid γ] (g : Entry → γ) (e : Entry)
    (m : Multiset Entry) : ((e ::ₘ m).map g).sum = g e + (m.map g).sum := by
  simp

/-- Consuming one item of the open `ReadDir`. -/
theorem estate_cur_tail (t : FNode) (f : Option (FsPath → FileType → Bool)) (s : ToScan)
    (p : FsPath) (x : Except IoErr Dirent) (rest : List (Except IoErr Dirent))
    (hcur : s.current_dir = some (p, x :: rest)) :
    EState t f s = direntResEmits t f p x +
      EState t f { s with current_dir := some (p, rest) } := by
  simp only [EState, qMset, hcur, curEmits, List.map_cons, List.sum_cons]
  simp [add_comm, add_left_comm, add_assoc]

theorem fstate_cur_tail (t : FNode) (s : ToScan)
    (p : FsPath) (x : Except IoErr Dirent) (rest : List (Except IoErr Dirent))
    (hcur : s.current_dir = some (p, x :: rest)) :
    FState t s = direntResErrs t p x +
      FState t { s with current_dir := some (p, rest) } := by
  simp only [FState, qMset, hcur, curErrs, List.map_cons, List.sum_cons]
  omega

theorem wstate_cur_tail (t : FNode) (s : ToScan)
    (p : FsPath) (x : Except IoErr Dirent) (rest : List (Except IoErr Dirent))
    (hcur : s.current_dir = some (p, x :: rest)) :
    WState t s = direntResW t p x +
      WState t { s with current_dir := some (p, rest) } := by
  simp only [WState, qMset, hcur, curW, List.map_cons, List.sum_cons]
  omega

/-- Pushing (or, read backwards, popping) one queued entry. -/
theorem estate_qpush (t : FNode) (f : Option (FsPath → FileType → Bool))
    (sq s1 : ToScan) (e : Entry) (hms : qMset sq = e ::ₘ qMset s1)
    (hcd : sq.current_dir = s1.current_dir) (hio : sq.inode_ordered = s1.inode_ordered)
    (hlv : sq.phy_sorted_leaves = s1.phy_sorted_leaves) :
    EState t f sq = entryEmits t f e + EState t f s1 := by
  simp only [EState, hms, hcd, hio, hlv, Multiset.map_cons, Multiset.sum_cons]
  simp [add_comm, add_left_comm, add_assoc]

theorem fstate_qpush (t : FNode) (sq s1 : ToScan) (e : Entry)
    (hms : qMset sq = e ::ₘ qMset s1) (hcd : sq.current_dir = s1.current_dir) :
    FState t sq = entryErrs t e + FState t s1 := by
  simp only [FState, hms, hcd, Multiset.map_cons, Multiset.sum_cons]
  have he : (Multiset.map (fun x => entryErrs t x) (qMset s1)).sum =
      (Multiset.map (entryErrs t) (qMset s1)).sum := rfl
  omega

theorem wstate_qpush (t : FNode) (sq s1 : ToScan) (e : Entry)
    (hms : qMset sq = e ::ₘ qMset s1) (hcd : sq.current_dir = s1.current_dir)
    (hio : sq.inode_ordered.length = s1.inode_ordered.length)
    (hlv : sq.phy_sorted_leaves.length = s1.phy_sorted_leaves.length) :
    WState t sq = entryW t e + WState t s1 := by
  simp only [WState, hms, hcd, hio, hlv, Multiset.map_cons, Multiset.sum_cons]
  have he : (Multiset.map (fun x => entryW t x) (qMset s1)).sum =
      (Multiset.map (entryW t) (qMset s1)).sum := rfl
  omega

/-- Pushing one entry path into the batch buffer. -/
theorem estate_bufpush (t : FNode) (f : Option (FsPath → FileType → Bool))
    (s3 sq : ToScan) (q : FsPath) (hq : qMset s3 = qMset sq)
    (hcd : s3.current_dir = sq.current_dir)
    (hpath : ((s3.inode_ordered.map Entry.path : List FsPath) : Multiset FsPath) =
      q ::ₘ ↑(sq.inode_ordered.map Entry.path))
    (hlv : s3.phy_sorted_leaves = sq.phy_sorted_leaves) :
    EState t f s3 = {q} + EState t f sq := by
  simp only [EState, hq, hcd, hpath, hlv]
  simp only [← Multiset.singleton_add]
  simp [add_comm, add_left_comm, add_assoc]

/-- Opening a directory stream in a state with no open one. -/
theorem estate_cur_set (t : FNode) (f : Option (FsPath → FileType → Bool)) (s2 : ToScan)
    (pr : FsPath × List (Except IoErr Dirent)) (hcd : s2.current_dir = none) :
    EState t f { s2 with current_dir := some pr } =
      curEmits t f (some pr) + EState t f s2 := by
  simp only [EState, qMset, hcd, curEmits]
  simp [add_comm, add_left_comm, add_assoc]

theorem fstate_cur_set (t : FNode) (s2 : ToScan)
    (pr : FsPath × List (Except IoErr Dirent)) (hcd : s2.current_dir = none) :
    FState t { s2 with current_dir := some pr } =
      curErrs t (some pr) + FState t s2 := by
  simp only [FState, qMset, hcd, curErrs]
  omega

theorem wstate_cur_set (t : FNode) (s2 : ToScan)
    (pr : FsPath × List (Except IoErr Dirent)) (hcd : s2.current_dir = none) :
    WState t { s2 with current_dir := some pr } =
      curW t (some pr) + WState t s2 := by
  simp only [WState, qMset, hcd, curW]
  omega

/-- Opening a directory: its queue weight is traded for its `ReadDir`. -/
theorem nodeEmits_dir (f : Option (FsPath → FileType → Bool)) (dino : Nat)
    (items : List DirItem) (p : FsPath) :
    nodeEmits f (.dir dino items) p = itemsEmits f items p := by
  simp [nodeEmits]

theorem nonDir_accounts (n : FNode) (hnd : ∀ dino items, n ≠ FNode.dir dino items)
    (f : Option (FsPath → FileType → Bool)) (p : FsPath) :
    nodeEmits f n p = 0 ∧ nodeErrsQ n = 1 ∧ nodeW n = 1 := by
  cases n with
  | dir dino items => exact absurd rfl (hnd dino items)
  | ftErr c i => exact ⟨by simp [nodeEmits], by simp [nodeErrsQ], by simp [nodeW]⟩
  | file i => exact ⟨by simp [nodeEmits], by simp [nodeErrsQ], by simp [nodeW]⟩
  | dirFail i c => exact ⟨by simp [nodeEmits], by simp [nodeErrsQ], by simp [nodeW]⟩

theorem fsOfTree_readDir_dir (t : FNode) (extM : FsPath → Except IoErr (List FileExtent))
    (devs : String → Bool) (p : FsPath) (dino : Nat) (items : List DirItem)
    (hl : lookupNode t p = some (.dir dino items)) :
    (fsOfTree t extM devs).readDir p = .ok (listingOf items) := by
  simp [fsOfTree, hl]

theorem fsOfTree_readDir_err (t : FNode) (extM : FsPath → Except IoErr (List FileExtent))
    (devs : String → Bool) (p : FsPath) (n : FNode)
    (hl : lookupNode t p = some n) (hnd : ∀ dino items, n ≠ FNode.dir dino items) :
    ∃ c, (fsOfTree t extM devs).readDir p = .error c := by
  cases n with
  | dir dino items => exact absurd rfl (hnd dino items)
  | ftErr c i => exact ⟨20, by simp [fsOfTree, hl]⟩
  | file i => exact ⟨20, by simp [fsOfTree, hl]⟩
  | dirFail i c => exact ⟨c, by simp [fsOfTree, hl]⟩

/-- The emission stage shared by every successfully-typed dirent: from
the pre-accounted state `sq` (dirent consumed, discovered sub-directory
queued), `emitOrBuffer` completes the step contract towards the
original state `s`. -/
theorem emit_stage (t : FNode) (f : Option (FsPath → FileType → Bool)) (s sq : ToScan)
    (q : FsPath) (meta : FileType) (ino : Nat)
    (hqi : QInv t f sq) (hphase : sq.phase = .DirWalk)
    (hE : EState t f sq + (if skipByFilter f q meta = true then 0 else {q}) = EState t f s)
    (hF : FState t sq = FState t s)
    (hW : WState t sq + 3 ≤ WState t s) :
    stepOk t f s (emitOrBuffer sq q meta ino) := by
  have hpf : sq.prefilter = f := hqi.1
  have hord : sq.order = .Dentries → sq.inode_ordered = [] :=
    fun h => (hqi.2.2.2.2.2.2.2 h).2
  obtain ⟨hnc, hsafe⟩ := emitOrBuffer_safe sq q meta ino hphase hord
  rcases emitOrBuffer_cases sq q meta ino with ⟨hskt, heq⟩ | ⟨hskf, heq⟩ |
    ⟨hskf, hnd, hres1, hpath, hlen, hphy, hun, hlv, hcd, hcu, hpf2, hord2⟩
  · rw [heq]
    have hskt2 : skipByFilter f q meta = true := by rw [← hpf]; exact hskt
    rw [if_pos hskt2, add_zero] at hE
    exact ⟨hqi, hE, hF, mstate_lt_of_w t sq s (by omega)⟩
  · rw [heq]
    have hskf2 : skipByFilter f q meta = false := by rw [← hpf]; exact hskf
    simp only [hskf2] at hE
    rw [if_neg (by simp)] at hE
    exact ⟨hqi, hE, hF, mstate_lt_of_w t sq s (by omega)⟩
  · have hres : emitOrBuffer sq q meta ino = (.cont, (emitOrBuffer sq q meta ino).2) := by
      rw [← hres1]
    rw [hres]
    have hskf2 : skipByFilter f q meta = false := by rw [← hpf]; exact hskf
    simp only [hskf2] at hE
    rw [if_neg (by simp)] at hE
    have hqm3 : qMset (emitOrBuffer sq q meta ino).2 = qMset sq :=
      qMset_fields sq _ hun hphy
    have hE3 : EState t f (emitOrBuffer sq q meta ino).2 = {q} + EState t f sq :=
      estate_bufpush t f _ sq q hqm3 hcd hpath hlv
    have hF3 : FState t (emitOrBuffer sq q meta ino).2 = FState t sq :=
      FState_fields t sq _ hqm3 hcd
    have hW3 : WState t (emitOrBuffer sq q meta ino).2 = WState t sq + 2 := by
      simp only [WState, hqm3, hcd, hlen, hlv]
      have he : (Multiset.map (fun x => entryW t x) (qMset sq)).sum =
          (Multiset.map (entryW t) (qMset sq)).sum := rfl
      omega
    refine ⟨?_, ?_, ?_, ?_⟩
    · refine ⟨hpf2.trans hpf, ?_, ?_, ?_, ?_, hsafe⟩
      · intro e he
        exact hqi.2.1 e (by rwa [hqm3] at he)
      · simp only [hcd]
        exact hqi.2.2.1
      · rw [hphy]
        exact hqi.2.2.2.1
      · rw [hphy]
        exact hqi.2.2.2.2.1
    · rw [hE3, add_comm]
      exact hE
    · rw [hF3, hF]
    · refine mstate_lt_of_w t _ s ?_
      omega

/-- The cursor-reset iteration of the `while` loop: `get_next` found
nothing at or above the cursor, the cursor wraps to 0. -/
theorem dirstep_reset (t : FNode) (f : Option (FsPath → FileType → Bool)) (fs : FS)
    (s : ToScan) (hphase : s.phase = .DirWalk) (hne : ¬ s.is_empty)
    (hcur : s.current_dir = none) (hq : QInv t f s)
    (h1 : (s.get_next fs).1 = none) (h2 : (s.get_next fs).2.unordered = s.unordered)
    (h3 : (s.get_next fs).2.phy_sorted = s.phy_sorted)
    (h5 : s.unordered = []) (h6 : findGE s.cursor s.phy_sorted = none) :
    stepOk t f s (dirWalkStep fs s) := by
  obtain ⟨hqF, hqQ, hqC, hqS, hqB, hqSafe⟩ := hq
  obtain ⟨hg1, hg2, hg3, hg4, hg5, hg6, hg7⟩ := get_next_state s fs
  have hd : dirWalkStep fs s = (.cont, { (s.get_next fs).2 with cursor := 0 }) := by
    simp only [dirWalkStep, hcur, h1]
  rw [hd]
  have hqm : qMset { (s.get_next fs).2 with cursor := 0 } = qMset s :=
    qMset_fields s _ h2 h3
  have hpne : s.phy_sorted ≠ [] := by
    intro hp
    exact hne ⟨hp, h5, hcur⟩
  refine ⟨?_, ?_, ?_, ?_⟩
  · refine ⟨hg4.trans hqF, ?_, ?_, ?_, ?_, ?_⟩
    · intro e he
      exact hqQ e (by rwa [hqm] at he)
    · have hcd : (s.get_next fs).2.current_dir = none := hg2.trans hcur
      simp [hcd]
    · show KeysSorted ((s.get_next fs).2).phy_sorted
      rw [h3]
      exact hqS
    · show ∀ kv ∈ ((s.get_next fs).2).phy_sorted, kv.1 ≤ U64MAX
      rw [h3]
      exact hqB
    · exact safeInv_transport s _ hg5 hg6 hg3 hg1 hqSafe
  · exact EState_fields t f s _ hqm hg2 hg3 hg1
  · exact FState_fields t s _ hqm hg2
  · have hweq : WState t { (s.get_next fs).2 with cursor := 0 } = WState t s :=
      WState_fields t s _ hqm hg2 (congrArg List.length hg3) (congrArg List.length hg1)
    have hs1 : stuckB s = 1 := by
      unfold stuckB
      rw [if_pos ⟨hphase, hne, hcur, h5, h6⟩]
    have hs0 : stuckB { (s.get_next fs).2 with cursor := 0 } = 0 := by
      unfold stuckB
      rw [if_neg ?_]
      rintro ⟨c1, c2, c3, c4, c5⟩
      have c5a : findGE 0 ((s.get_next fs).2).phy_sorted = none := c5
      rw [h3] at c5a
      exact findGE_zero hpne hqB c5a
    unfold MState
    omega

/-- The dequeue iteration of the `while` loop: `get_next` produced an
entry; its `read_dir` either opens a stream or yields the error. -/
theorem dirstep_dequeue (t : FNode) (hwf : wfNode t = true)
    (f : Option (FsPath → FileType → Bool)) (extM : FsPath → Except IoErr (List FileExtent))
    (devs : String → Bool) (s : ToScan)
    (hcur : s.current_dir = none) (hq : QInv t f s)
    (e : Entry) (h1 : (s.get_next (fsOfTree t extM devs)).1 = some e)
    (hmem : e ∈ qMset s)
    (hms : e ::ₘ qMset (s.get_next (fsOfTree t extM devs)).2 = qMset s)
    (hphy : (s.get_next (fsOfTree t extM devs)).2.phy_sorted = s.phy_sorted ∨
      ∃ k, (s.get_next (fsOfTree t extM devs)).2.phy_sorted = eraseKey k s.phy_sorted) :
    stepOk t f s (dirWalkStep (fsOfTree t extM devs) s) := by
  obtain ⟨hqF, hqQ, hqC, hqS, hqB, hqSafe⟩ := hq
  obtain ⟨hg1, hg2, hg3, hg4, hg5, hg6, hg7⟩ := get_next_state s (fsOfTree t extM devs)
  obtain ⟨n, hn⟩ := Option.isSome_iff_exists.mp (hqQ e hmem)
  have hkeep : KeysSorted ((s.get_next (fsOfTree t extM devs)).2).phy_sorted ∧
      (∀ kv ∈ ((s.get_next (fsOfTree t extM devs)).2).phy_sorted, kv.1 ≤ U64MAX) := by
    rcases hphy with h | ⟨k, h⟩
    · rw [h]
      exact ⟨hqS, hqB⟩
    · rw [h]
      exact ⟨eraseKey_keysSorted s.phy_sorted hqS,
        fun kv hkv => hqB kv (eraseKey_subset s.phy_sorted hkv)⟩
  have hqE : EState t f s = entryEmits t f e +
      EState t f (s.get_next (fsOfTree t extM devs)).2 :=
    estate_qpush t f s _ e hms.symm hg2.symm hg3.symm hg1.symm
  have hqFE : FState t s = entryErrs t e + FState t (s.get_next (fsOfTree t extM devs)).2 :=
    fstate_qpush t s _ e hms.symm hg2.symm
  have hqW : WState t s = entryW t e + WState t (s.get_next (fsOfTree t extM devs)).2 :=
    wstate_qpush t s _ e hms.symm hg2.symm (congrArg List.length hg3.symm)
      (congrArg List.length hg1.symm)
  have heE : entryEmits t f e = nodeEmits f n e.path := by simp [entryEmits, hn]
  have heF : entryErrs t e = nodeErrsQ n := by simp [entryErrs, hn]
  have heW : entryW t e = nodeW n := by simp [entryW, hn]
  have hqigen : QInv t f (s.get_next (fsOfTree t extM devs)).2 := by
    refine ⟨hg4.trans hqF, ?_, ?_, hkeep.1, hkeep.2, ?_⟩
    · intro e2 he2
      refine hqQ e2 ?_
      rw [← hms]
      exact Multiset.mem_cons_of_mem he2
    · have hcd : (s.get_next (fsOfTree t extM devs)).2.current_dir = none := hg2.trans hcur
      simp [hcd]
    · exact safeInv_transport s _ hg5 hg6 hg3 hg1 hqSafe
  have key : (∀ dino items, n ≠ FNode.dir dino items) →
      stepOk t f s (dirWalkStep (fsOfTree t extM devs) s) := by
    intro hnd
    obtain ⟨c, hrd⟩ := fsOfTree_readDir_err t extM devs e.path n hn hnd
    obtain ⟨haE, haF, haW⟩ := nonDir_accounts n hnd f e.path
    have hd : dirWalkStep (fsOfTree t extM devs) s =
        (.yield (.error c), (s.get_next (fsOfTree t extM devs)).2) := by
      simp only [dirWalkStep, hcur, h1, hrd]
    rw [hd]
    refine ⟨hqigen, ?_, ?_, ?_⟩
    · rw [hqE, heE, haE, zero_add]
    · rw [hqFE, heF, haF]
      omega
    · refine mstate_lt_of_w t _ s ?_
      rw [hqW, heW, haW]
      omega
  cases n with
  | ftErr c2 i => exact key (fun dino items h => FNode.noConfusion h)
  | file i => exact key (fun dino items h => FNode.noConfusion h)
  | dirFail i c2 => exact key (fun dino items h => FNode.noConfusion h)
  | dir dino items =>
    have hrd := fsOfTree_readDir_dir t extM devs e.path dino items hn
    have hd : dirWalkStep (fsOfTree t extM devs) s = (.cont,
        { (s.get_next (fsOfTree t extM devs)).2 with
            current_dir := some (e.path, listingOf items) }) := by
      simp only [dirWalkStep, hcur, h1, hrd]
    rw [hd]
    obtain ⟨hsE, hsF, hsW⟩ :=
      listing_sums t hwf f e.path dino items hn items (List.Subset.refl items)
    have hcd0 : (s.get_next (fsOfTree t extM devs)).2.current_dir = none := hg2.trans hcur
    have hcE : curEmits t f (some (e.path, listingOf items)) = itemsEmits f items e.path := by
      simp only [curEmits]
      exact hsE
    have hcF : curErrs t (some (e.path, listingOf items)) = itemsErrs items := by
      simp only [curErrs]
      exact hsF
    have hcW : curW t (some (e.path, listingOf items)) = 1 + itemsW items := by
      simp only [curW]
      rw [hsW]
    have hnE : nodeEmits f (.dir dino items) e.path = itemsEmits f items e.path :=
      nodeEmits_dir f dino items e.path
    have hnF : nodeErrsQ (.dir dino items) = itemsErrs items := by simp [nodeErrsQ]
    have hnW : nodeW (.dir dino items) = 2 + itemsW items := by simp [nodeW]
    refine ⟨?_, ?_, ?_, ?_⟩
    · refine ⟨hg4.trans hqF, ?_, ?_, hkeep.1, hkeep.2, ?_⟩
      · intro e2 he2
        refine hqQ e2 ?_
        rw [← hms]
        exact Multiset.mem_cons_of_mem he2
      · exact ⟨dino, items, items, hn, List.Subset.refl items, rfl⟩
      · exact safeInv_transport s _ hg5 hg6 hg3 hg1 hqSafe
    · rw [estate_cur_set t f _ (e.path, listingOf items) hcd0, hcE, hqE, heE, hnE]
    · rw [fstate_cur_set t _ (e.path, listingOf items) hcd0, hcF, hqFE, heF, hnF]
    · refine mstate_lt_of_w t _ s ?_
      rw [wstate_cur_set t _ (e.path, listingOf items) hcd0, hcW, hqW, heW, hnW]
      omega

/-- The stream-consumption iteration of the `while` loop: one item of
the open `ReadDir` is taken, and closed, yielded, skipped, queued or
buffered as the source dictates. -/
theorem dirstep_consume (t : FNode) (hwf : wfNode t = true)
    (f : Option (FsPath → FileType → Bool)) (extM : FsPath → Except IoErr (List FileExtent))
    (devs : String → Bool) (hext : ∀ p2, extOk (extM p2)) (s : ToScan)
    (hphase : s.phase = .DirWalk) (p : FsPath) (items : List (Except IoErr Dirent))
    (hcur : s.current_dir = some (p, items)) (hq : QInv t f s) :
    stepOk t f s (dirWalkStep (fsOfTree t extM devs) s) := by
  obtain ⟨hqF, hqQ, hqC, hqS, hqB, hqSafe⟩ := hq
  have hqC2 := hqC
  simp only [hcur] at hqC2
  obtain ⟨dino, items₀, items₁, hl, hsub, hlst⟩ := hqC2
  cases items₁ with
  | nil =>
    have hitems : items = [] := by simpa [listingOf] using hlst
    have hd : dirWalkStep (fsOfTree t extM devs) s =
        (.cont, { s with current_dir := none }) := by
      simp only [dirWalkStep, hcur, hitems]
    rw [hd]
    refine ⟨?_, ?_, ?_, ?_⟩
    · refine ⟨hqF, fun e2 he2 => hqQ e2 he2, by simp, hqS, hqB, ?_⟩
      exact safeInv_transport s _ rfl rfl rfl rfl hqSafe
    · show EState t f { s with current_dir := none } = EState t f s
      simp only [EState, qMset, hcur, hitems, curEmits]
      simp
    · show FState t { s with current_dir := none } = FState t s
      simp only [FState, qMset, hcur, hitems, curErrs]
      simp
    · refine mstate_lt_of_w t _ s ?_
      show WState t { s with current_dir := none } < WState t s
      simp only [WState, qMset, hcur, hitems, curW]
      simp
  | cons it₁ items₁' =>
    have hlst2 : items = direntResOf it₁ :: listingOf items₁' := by
      rw [hlst]
      simp [listingOf]
    have hcur2 : s.current_dir = some (p, direntResOf it₁ :: listingOf items₁') := by
      rw [hcur, hlst2]
    have hmem1 : it₁ ∈ items₀ := hsub (List.mem_cons_self it₁ items₁')
    have hsub2 : items₁' ⊆ items₀ := fun x hx => hsub (List.mem_cons_of_mem it₁ hx)
    obtain ⟨eE, eF, eW⟩ := direntRes_of_item t hwf f p dino items₀ hl it₁ hmem1
    have hdE := estate_cur_tail t f s p _ _ hcur2
    have hdF := fstate_cur_tail t s p _ _ hcur2
    have hdW := wstate_cur_tail t s p _ _ hcur2
    have hq1 : QInv t f { s with current_dir := some (p, listingOf items₁') } := by
      refine ⟨hqF, fun e2 he2 => hqQ e2 he2, ?_, hqS, hqB, ?_⟩
      · exact ⟨dino, items₀, items₁', hl, hsub2, rfl⟩
      · exact safeInv_transport s _ rfl rfl rfl rfl hqSafe
    cases it₁ with
    | iterErr c =>
      have hd : dirWalkStep (fsOfTree t extM devs) s =
          (.yield (.error c), { s with current_dir := some (p, listingOf items₁') }) := by
        simp only [dirWalkStep, hcur2, direntResOf]
      rw [hd]
      refine ⟨hq1, ?_, ?_, ?_⟩
      · rw [hdE, eE]
        simp [itemEmits]
      · rw [hdF, eF]
        simp only [itemErrs]
        omega
      · refine mstate_lt_of_w t _ s ?_
        rw [hdW, eW]
        simp only [itemW]
        omega
    | child name c =>
      have hlq : lookupNode t (p ++ [name]) = some c :=
        dirent_of_item t hwf p dino items₀ hl name c hmem1
      cases hft : nodeFt c with
      | error c2 =>
        have hd : dirWalkStep (fsOfTree t extM devs) s =
            (.yield (.error c2), { s with current_dir := some (p, listingOf items₁') }) := by
          simp only [dirWalkStep, hcur2, direntResOf, hft]
        rw [hd]
        cases c with
        | ftErr c3 i =>
          refine ⟨hq1, ?_, ?_, ?_⟩
          · rw [hdE, eE]
            simp [itemEmits, nodeEmits, nodeFt]
          · rw [hdF, eF]
            simp only [itemErrs, subErrs]
            omega
          · refine mstate_lt_of_w t _ s ?_
            rw [hdW, eW]
            simp only [itemW, nodeW]
            omega
        | file i => simp [nodeFt] at hft
        | dirFail i c3 => simp [nodeFt] at hft
        | dir i its2 => simp [nodeFt] at hft
      | ok meta =>
        have hkind : (meta.is_dir = false →
              (∀ pz, nodeEmits f c pz = 0) ∧ subErrs c = 0 ∧ nodeW c = 1) ∧
            (meta.is_dir = true → nodeErrsQ c = subErrs c) := by
          cases c with
          | ftErr c3 i => simp [nodeFt] at hft
          | file i =>
            have hmeta : meta = ⟨false⟩ := by
              simp only [nodeFt, Except.ok.injEq] at hft
              exact hft.symm
            constructor
            · intro _
              exact ⟨fun pz => by simp [nodeEmits], by simp [subErrs], by simp [nodeW]⟩
            · intro hmd
              rw [hmeta] at hmd
              simp at hmd
          | dirFail i c3 =>
            have hmeta : meta = ⟨true⟩ := by
              simp only [nodeFt, Except.ok.injEq] at hft
              exact hft.symm
            constructor
            · intro hmd
              rw [hmeta] at hmd
              simp at hmd
            · intro _
              simp [nodeErrsQ, subErrs]
          | dir i its2 =>
            have hmeta : meta = ⟨true⟩ := by
              simp only [nodeFt, Except.ok.injEq] at hft
              exact hft.symm
            constructor
            · intro hmd
              rw [hmeta] at hmd
              simp at hmd
            · intro _
              simp [nodeErrsQ, subErrs]
        have hd : dirWalkStep (fsOfTree t extM devs) s =
            emitOrBuffer
              (queueDir (fsOfTree t extM devs)
                { s with current_dir := some (p, listingOf items₁') } (p ++ [name]) meta
                (nodeIno c))
              (p ++ [name]) meta (nodeIno c) := by
          simp only [dirWalkStep, hcur2, direntResOf, hft, processDirent]
        rw [hd]
        have hitE : itemEmits f (.child name c) p =
            (if skipByFilter f (p ++ [name]) meta = true then 0 else {p ++ [name]}) +
              nodeEmits f c (p ++ [name]) := by
          simp only [itemEmits, hft]
        rcases queueDir_cases (fsOfTree t extM devs)
            { s with current_dir := some (p, listingOf items₁') } (p ++ [name]) meta
            (nodeIno c) hqS hqB (hext (p ++ [name])) with
          ⟨hdf, hqeq⟩ | ⟨hdt, ex, hqm, hqs2, hqb2⟩
        · obtain ⟨hz, hzF, hzW⟩ := hkind.1 hdf
          refine emit_stage t f s _ (p ++ [name]) meta (nodeIno c)
            (by rw [hqeq]; exact hq1) (by rw [hqeq]; exact hphase) ?_ ?_ ?_
          · rw [hqeq, hdE, eE, hitE, hz (p ++ [name])]
            simp [add_comm, add_left_comm]
          · rw [hqeq, hdF, eF]
            simp only [itemErrs, hzF]
            omega
          · rw [hqeq, hdW, eW]
            simp only [itemW, hzW]
            omega
        · obtain ⟨hqd1, hqd2, hqd3, hqd4, hqd5, hqd6, hqd7, hqd8, hqd9, hqd10, hqd11⟩ :=
            queueDir_state (fsOfTree t extM devs)
              { s with current_dir := some (p, listingOf items₁') } (p ++ [name]) meta
              (nodeIno c)
          have hsqE : EState t f (queueDir (fsOfTree t extM devs)
              { s with current_dir := some (p, listingOf items₁') } (p ++ [name]) meta
              (nodeIno c)) =
              entryEmits t f ⟨p ++ [name], meta, nodeIno c, ex⟩ +
              EState t f { s with current_dir := some (p, listingOf items₁') } :=
            estate_qpush t f _ _ _ hqm hqd3 hqd4 hqd1
          have hsqF : FState t (queueDir (fsOfTree t extM devs)
              { s with current_dir := some (p, listingOf items₁') } (p ++ [name]) meta
              (nodeIno c)) =
              entryErrs t ⟨p ++ [name], meta, nodeIno c, ex⟩ +
              FState t { s with current_dir := some (p, listingOf items₁') } :=
            fstate_qpush t _ _ _ hqm hqd3
          have hsqW : WState t (queueDir (fsOfTree t extM devs)
              { s with current_dir := some (p, listingOf items₁') } (p ++ [name]) meta
              (nodeIno c)) =
              entryW t ⟨p ++ [name], meta, nodeIno c, ex⟩ +
              WState t { s with current_dir := some (p, listingOf items₁') } :=
            wstate_qpush t _ _ _ hqm hqd3 (congrArg List.length hqd4)
              (congrArg List.length hqd1)
          have heqE : entryEmits t f (⟨p ++ [name], meta, nodeIno c, ex⟩ : Entry) =
              nodeEmits f c (p ++ [name]) := by
            simp [entryEmits, hlq]
          have heqF : entryErrs t (⟨p ++ [name], meta, nodeIno c, ex⟩ : Entry) =
              nodeErrsQ c := by
            simp [entryErrs, hlq]
          have heqW : entryW t (⟨p ++ [name], meta, nodeIno c, ex⟩ : Entry) = nodeW c := by
            simp [entryW, hlq]
          refine emit_stage t f s _ (p ++ [name]) meta (nodeIno c) ?_ ?_ ?_ ?_ ?_
          · refine ⟨hqd5.trans hq1.1, ?_, ?_, hqs2, hqb2, ?_⟩
            · intro e2 he2
              rw [hqm] at he2
              rcases Multiset.mem_cons.mp he2 with h | h
              · rw [h]
                simp [hlq]
              · exact hq1.2.1 e2 h
            · simp only [hqd3]
              exact hq1.2.2.1
            · exact safeInv_transport _ _ hqd6 hqd7 hqd4 hqd1 hq1.2.2.2.2.2
          · exact hqd6.trans hphase
          · rw [hsqE, heqE, hdE, eE, hitE]
            abel
          · rw [hsqF, heqF, hdF, eF]
            simp only [itemErrs, hkind.2 hdt]
          · rw [hsqW, heqW, hdW, eW]
            simp only [itemW]
            omega

/-- Popping the back of the batch buffer. -/
theorem estate_bufpop (t : FNode) (f : Option (FsPath → FileType → Bool))
    (s2 s : ToScan) (x : Entry)
    (hqm : qMset s2 = qMset s) (hcd : s2.current_dir = s.current_dir)
    (hio : s.inode_ordered = s2.inode_ordered ++ [x])
    (hlv : s2.phy_sorted_leaves = s.phy_sorted_leaves) :
    EState t f s2 + {x.path} = EState t f s := by
  simp only [EState, hqm, hcd, hio, hlv]
  simp [add_comm, add_left_comm, add_assoc]
  exact List.perm_middle.symm

/-- Popping the back of the content-leaf buffer. -/
theorem estate_leafpop (t : FNode) (f : Option (FsPath → FileType → Bool))
    (s2 s : ToScan) (pr : Nat × Entry)
    (hqm : qMset s2 = qMset s) (hcd : s2.current_dir = s.current_dir)
    (hio : s2.inode_ordered = s.inode_ordered)
    (hlv : s.phy_sorted_leaves = s2.phy_sorted_leaves ++ [pr]) :
    EState t f s2 + {pr.2.path} = EState t f s := by
  simp only [EState, hqm, hcd, hio, hlv]
  simp [add_comm, add_left_comm, add_assoc]
  exact List.perm_middle.symm.trans
    (List.Perm.append_left _ (List.perm_append_singleton _ _).symm)

/-- The `InodePass` block: under the safety invariant it never crashes,
pops one buffered entry (order `Inode`) or converts the whole buffer to
content leaves (order `Content`). -/
theorem inode_spec (t : FNode) (f : Option (FsPath → FileType → Bool)) (fs : FS)
    (s : ToScan) (hq : QInv t f s)
    (hguard : s.phase = .InodePass ∨ (s.is_empty ∧ s.inode_ordered ≠ [])) :
    stepOk t f s (inodeBlock fs s) := by
  obtain ⟨hqF, hqQ, hqC, hqS, hqB, hqSafe⟩ := hq
  have hbne : s.inode_ordered ≠ [] := by
    rcases hguard with h | h
    · exact hqSafe.1 h
    · exact h.2
  have hsafe2 := (inodeBlock_safe fs s hqSafe hguard).2
  cases ho : s.order with
  | Dentries =>
    exact absurd (hqSafe.2.2 ho).2 hbne
  | Inode =>
    obtain ⟨x, xs, hpop⟩ := popBack_isSome s.inode_ordered hbne
    have hl := popBack_eq_some s.inode_ordered x xs hpop
    have hlen : s.inode_ordered.length = xs.length + 1 := by
      rw [hl]
      simp
    have hd : inodeBlock fs s = (.yield (.ok x),
        if xs = [] then
          ({ s with inode_ordered := xs, phase := Phase.DirWalk } : ToScan)
        else { s with inode_ordered := xs }) := by
      simp only [inodeBlock, ho, hpop]
      rw [if_neg hbne]
    rw [hd] at hsafe2 ⊢
    by_cases hxs : xs = []
    · rw [if_pos hxs] at hsafe2 ⊢
      refine ⟨?_, ?_, ?_, ?_⟩
      · exact ⟨hqF, fun e2 he2 => hqQ e2 he2, hqC, hqS, hqB, hsafe2⟩
      · exact estate_bufpop t f _ s x rfl rfl hl rfl
      · exact FState_fields t s _ rfl rfl
      · refine mstate_lt_of_w t _ s ?_
        have hw2 : WState t ({ s with inode_ordered := xs, phase := Phase.DirWalk } :
            ToScan) + 2 = WState t s := by
          simp only [WState, qMset]
          omega
        omega
    · rw [if_neg hxs] at hsafe2 ⊢
      refine ⟨?_, ?_, ?_, ?_⟩
      · exact ⟨hqF, fun e2 he2 => hqQ e2 he2, hqC, hqS, hqB, hsafe2⟩
      · exact estate_bufpop t f _ s x rfl rfl hl rfl
      · exact FState_fields t s _ rfl rfl
      · refine mstate_lt_of_w t _ s ?_
        have hw2 : WState t ({ s with inode_ordered := xs } : ToScan) + 2 = WState t s := by
          simp only [WState, qMset]
          omega
        omega
  | Content =>
    have hnl : sortByKey (fun pr : Nat × Entry => pr.1)
        (s.phy_sorted_leaves ++ s.inode_ordered.reverse.map
          (fun e => (contentOffset fs e.path, e))) ≠ [] := by
      rw [Ne, sortByKey_eq_nil_iff]
      intro hx
      obtain ⟨h1, h2⟩ := List.append_eq_nil.mp hx
      exact hbne (by simpa using h2)
    have hd : inodeBlock fs s = (.cont, { s with
        inode_ordered := []
        phy_sorted_leaves := sortByKey (fun pr : Nat × Entry => pr.1)
          (s.phy_sorted_leaves ++ s.inode_ordered.reverse.map
            (fun e => (contentOffset fs e.path, e)))
        phase := .ContentPass }) := by
      simp only [inodeBlock, ho]
      rw [if_neg hbne, if_neg hnl]
    rw [hd] at hsafe2 ⊢
    have hperm := sortByKey_perm (fun pr : Nat × Entry => pr.1)
      (s.phy_sorted_leaves ++ s.inode_ordered.reverse.map
        (fun e => (contentOffset fs e.path, e)))
    have hpmap : ((sortByKey (fun pr : Nat × Entry => pr.1)
        (s.phy_sorted_leaves ++ s.inode_ordered.reverse.map
          (fun e => (contentOffset fs e.path, e)))).map (fun pr => pr.2.path) :
          List FsPath) ≠ [] → True := fun _ => trivial
    have hlv2 : ((List.map (fun pr : Nat × Entry => pr.2.path)
          (sortByKey (fun pr : Nat × Entry => pr.1)
            (s.phy_sorted_leaves ++ s.inode_ordered.reverse.map
              (fun e => (contentOffset fs e.path, e)))) : List FsPath) : Multiset FsPath) =
        ↑(s.phy_sorted_leaves.map (fun pr => pr.2.path)) +
          ↑(s.inode_ordered.map Entry.path) := by
      rw [Multiset.coe_eq_coe.mpr (hperm.map (fun pr : Nat × Entry => pr.2.path))]
      simp only [List.map_append, List.map_map]
      have hcomp : ((fun pr : Nat × Entry => pr.2.path) ∘
          (fun e : Entry => (contentOffset fs e.path, e))) = Entry.path := by
        funext e
        rfl
      rw [hcomp]
      have hrev : ((List.map Entry.path s.inode_ordered.reverse : List FsPath) :
          Multiset FsPath) = ↑(List.map Entry.path s.inode_ordered) := by
        refine Multiset.coe_eq_coe.mpr ?_
        exact (s.inode_ordered.reverse_perm).map Entry.path
      calc ((List.map (fun pr : Nat × Entry => pr.2.path) s.phy_sorted_leaves ++
              List.map Entry.path s.inode_ordered.reverse : List FsPath) : Multiset FsPath)
          = ↑(List.map (fun pr : Nat × Entry => pr.2.path) s.phy_sorted_leaves) +
            ↑(List.map Entry.path s.inode_ordered.reverse) := rfl
        _ = ↑(List.map (fun pr : Nat × Entry => pr.2.path) s.phy_sorted_leaves) +
            ↑(List.map Entry.path s.inode_ordered) := by rw [hrev]
    have hlen2 : (sortByKey (fun pr : Nat × Entry => pr.1)
        (s.phy_sorted_leaves ++ s.inode_ordered.reverse.map
          (fun e => (contentOffset fs e.path, e)))).length =
        s.phy_sorted_leaves.length + s.inode_ordered.length := by
      rw [sortByKey_length]
      simp
    refine ⟨?_, ?_, ?_, ?_⟩
    · exact ⟨hqF, fun e2 he2 => hqQ e2 he2, hqC, hqS, hqB, hsafe2⟩
    · simp only [EState, qMset, hlv2, List.map_nil]
      simp [add_comm, add_left_comm, add_assoc]
      rw [show ((List.map Entry.path s.inode_ordered ++
            List.map (fun pr : Nat × Entry => pr.2.path) s.phy_sorted_leaves :
            List FsPath) : Multiset FsPath) =
          ↑(List.map Entry.path s.inode_ordered) +
            ↑(List.map (fun pr : Nat × Entry => pr.2.path) s.phy_sorted_leaves) from rfl]
      abel
    · exact FState_fields t s _ rfl rfl
    · refine mstate_lt_of_w t _ s ?_
      have hbl : 1 ≤ s.inode_ordered.length := by
        cases hb : s.inode_ordered with
        | nil => exact absurd hb hbne
        | cons a l => simp
      have hw2 : WState t ({ s with
          inode_ordered := []
          phy_sorted_leaves := sortByKey (fun pr : Nat × Entry => pr.1)
            (s.phy_sorted_leaves ++ s.inode_ordered.reverse.map
              (fun e => (contentOffset fs e.path, e)))
          phase := .ContentPass } : ToScan) + s.inode_ordered.length = WState t s := by
        simp only [WState, qMset, hlen2, List.length_nil]
        omega
      omega

/-- The `ContentPass` block: under the safety invariant it never
crashes and pops one leaf. -/
theorem content_spec (t : FNode) (f : Option (FsPath → FileType → Bool))
    (s : ToScan) (hq : QInv t f s)
    (hguard : s.phase = .ContentPass ∨ (s.is_empty ∧ s.phy_sorted_leaves ≠ [])) :
    stepOk t f s (contentBlock s) := by
  obtain ⟨hqF, hqQ, hqC, hqS, hqB, hqSafe⟩ := hq
  have hbne : s.phy_sorted_leaves ≠ [] := by
    rcases hguard with h | h
    · exact hqSafe.2.1 h
    · exact h.2
  have hsafe2 := (contentBlock_safe s hqSafe hguard).2
  obtain ⟨x, xs, hpop⟩ := popBack_isSome s.phy_sorted_leaves hbne
  have hl := popBack_eq_some s.phy_sorted_leaves x xs hpop
  have hlen : s.phy_sorted_leaves.length = xs.length + 1 := by
    rw [hl]
    simp
  have hd : contentBlock s = (.yield (.ok x.2),
      if xs = [] then
        ({ s with phy_sorted_leaves := xs, phase := Phase.DirWalk } : ToScan)
      else { s with phy_sorted_leaves := xs }) := by
    simp only [contentBlock, hpop]
    rw [if_neg hbne]
  rw [hd] at hsafe2 ⊢
  by_cases hxs : xs = []
  · rw [if_pos hxs] at hsafe2 ⊢
    refine ⟨?_, ?_, ?_, ?_⟩
    · exact ⟨hqF, fun e2 he2 => hqQ e2 he2, hqC, hqS, hqB, hsafe2⟩
    · exact estate_leafpop t f _ s x rfl rfl rfl hl
    · exact FState_fields t s _ rfl rfl
    · refine mstate_lt_of_w t _ s ?_
      have hw2 : WState t ({ s with phy_sorted_leaves := xs, phase := Phase.DirWalk } :
          ToScan) + 1 = WState t s := by
        simp only [WState, qMset]
        omega
      omega
  · rw [if_neg hxs] at hsafe2 ⊢
    refine ⟨?_, ?_, ?_, ?_⟩
    · exact ⟨hqF, fun e2 he2 => hqQ e2 he2, hqC, hqS, hqB, hsafe2⟩
    · exact estate_leafpop t f _ s x rfl rfl rfl hl
    · exact FState_fields t s _ rfl rfl
    · refine mstate_lt_of_w t _ s ?_
      have hw2 : WState t ({ s with phy_sorted_leaves := xs } : ToScan) + 1 = WState t s := by
        simp only [WState, qMset]
        omega
      omega

/-- Every iteration of `next`'s control flow satisfies the step
contract. -/
theorem loopStep_spec (t : FNode) (hwf : wfNode t = true)
    (f : Option (FsPath → FileType → Bool)) (extM : FsPath → Except IoErr (List FileExtent))
    (devs : String → Bool) (hext : ∀ p2, extOk (extM p2))
    (s : ToScan) (hq : QInv t f s) :
    stepOk t f s (loopStep (fsOfTree t extM devs) s) := by
  by_cases hg1 : s.phase = Phase.DirWalk ∧ ¬ s.is_empty
  · have hstep : loopStep (fsOfTree t extM devs) s = dirWalkStep (fsOfTree t extM devs) s := by
      simp only [loopStep, if_pos hg1]
    rw [hstep]
    cases hcur : s.current_dir with
    | some pr =>
      exact dirstep_consume t hwf f extM devs hext s hg1.1 pr.1 pr.2 (by rw [hcur]) hq
    | none =>
      rcases get_next_mset s (fsOfTree t extM devs) hq.2.2.2.1 with
        ⟨h1, h2, h3, h4, h5, h6⟩ | ⟨e, h1, hmem, hms, hphy⟩
      · exact dirstep_reset t f _ s hg1.1 hg1.2 hcur hq h1 h2 h3 h5 h6
      · exact dirstep_dequeue t hwf f extM devs s hcur hq e h1 hmem hms hphy
  · by_cases hg2 : s.phase = Phase.InodePass ∨ (s.is_empty ∧ s.inode_ordered ≠ [])
    · have hstep : loopStep (fsOfTree t extM devs) s = inodeBlock (fsOfTree t extM devs) s := by
        simp only [loopStep, if_neg hg1, if_pos hg2]
      rw [hstep]
      exact inode_spec t f _ s hq hg2
    · by_cases hg3 : s.phase = Phase.ContentPass ∨ (s.is_empty ∧ s.phy_sorted_leaves ≠ [])
      · have hstep : loopStep (fsOfTree t extM devs) s = contentBlock s := by
          simp only [loopStep, if_neg hg1, if_neg hg2, if_pos hg3]
        rw [hstep]
        exact content_spec t f s hq hg3
      · have hstep : loopStep (fsOfTree t extM devs) s = (.done, s) := by
          simp only [loopStep, if_neg hg1, if_neg hg2, if_neg hg3]
        rw [hstep]
        have hempty : s.is_empty := by
          cases hph : s.phase with
          | DirWalk =>
            by_contra hne
            exact hg1 ⟨hph, hne⟩
          | InodePass => exact absurd (Or.inl hph) hg2
          | ContentPass => exact absurd (Or.inl hph) hg3
        have hempty2 : s.phy_sorted = [] ∧ s.unordered = [] ∧ s.current_dir = none := hempty
        obtain ⟨hp0, hu0, hc0⟩ := hempty2
        have hio : s.inode_ordered = [] := by
          by_contra h
          exact hg2 (Or.inr ⟨hempty, h⟩)
        have hlv : s.phy_sorted_leaves = [] := by
          by_contra h
          exact hg3 (Or.inr ⟨hempty, h⟩)
        refine ⟨rfl, ?_, ?_⟩
        · simp [EState, qMset, hp0, hu0, hc0, hio, hlv, curEmits]
        · simp [FState, qMset, hp0, hu0, hc0, curErrs]

theorem okPathsOf_cons_ok (e : Entry) (outs : List (Except IoErr Entry)) :
    okPathsOf (.ok e :: outs) = e.path ::ₘ okPathsOf outs := by
  simp [okPathsOf]

theorem okPathsOf_cons_err (c : IoErr) (outs : List (Except IoErr Entry)) :
    okPathsOf (.error c :: outs) = okPathsOf outs := by
  simp [okPathsOf]

theorem errCount_cons_ok (e : Entry) (outs : List (Except IoErr Entry)) :
    errCount (.ok e :: outs) = errCount outs := by
  simp [errCount]

theorem errCount_cons_err (c : IoErr) (outs : List (Except IoErr Entry)) :
    errCount (.error c :: outs) = errCount outs + 1 := by
  simp [errCount]

/-- Whole-run existence: from any state satisfying the coupling
invariant, some fuel lets `runScan` drain the scanner to a `done`
fixpoint, emitting exactly the pending `Ok` paths and the pending
error count. -/
theorem runScan_exists (t : FNode) (hwf : wfNode t = true)
    (f : Option (FsPath → FileType → Bool)) (extM : FsPath → Except IoErr (List FileExtent))
    (devs : String → Bool) (hext : ∀ p2, extOk (extM p2)) :
    ∀ (m : Nat) (s : ToScan), MState t s ≤ m → QInv t f s →
    ∃ n outs sEnd, runScan (fsOfTree t extM devs) n s = (outs, sEnd) ∧
      loopStep (fsOfTree t extM devs) sEnd = (.done, sEnd) ∧
      okPathsOf outs = EState t f s ∧ errCount outs = FState t s := by
  intro m
  induction m with
  | zero =>
    intro s hm hq
    have hspec := loopStep_spec t hwf f extM devs hext s hq
    rcases hstep : loopStep (fsOfTree t extM devs) s with ⟨o, s1⟩
    rw [hstep] at hspec
    cases o with
    | crash => exact hspec.elim
    | done =>
      obtain ⟨hs1, hE0, hF0⟩ := hspec
      refine ⟨1, [], s, ?_, ?_, ?_, ?_⟩
      · show runScan (fsOfTree t extM devs) (0 + 1) s = ([], s)
        simp only [runScan, hstep, hs1]
      · rw [hs1] at hstep
        exact hstep
      · rw [hE0]
        rfl
      · rw [hF0]
        rfl
    | cont => exact absurd hspec.2.2.2 (by omega)
    | yield x =>
      cases x with
      | ok e => exact absurd hspec.2.2.2 (by omega)
      | error c => exact absurd hspec.2.2.2 (by omega)
  | succ m ih =>
    intro s hm hq
    have hspec := loopStep_spec t hwf f extM devs hext s hq
    rcases hstep : loopStep (fsOfTree t extM devs) s with ⟨o, s1⟩
    rw [hstep] at hspec
    cases o with
    | crash => exact hspec.elim
    | done =>
      obtain ⟨hs1, hE0, hF0⟩ := hspec
      refine ⟨1, [], s, ?_, ?_, ?_, ?_⟩
      · show runScan (fsOfTree t extM devs) (0 + 1) s = ([], s)
        simp only [runScan, hstep, hs1]
      · rw [hs1] at hstep
        exact hstep
      · rw [hE0]
        rfl
      · rw [hF0]
        rfl
    | cont =>
      obtain ⟨hq1, hE1, hF1, hM⟩ := hspec
      obtain ⟨n, outs, sEnd, hrun, hdone, hok, herr⟩ := ih s1 (by omega) hq1
      refine ⟨n + 1, outs, sEnd, ?_, hdone, ?_, ?_⟩
      · simp only [runScan, hstep]
        exact hrun
      · rw [hok, hE1]
      · rw [herr, hF1]
    | yield x =>
      cases x with
      | ok e =>
        obtain ⟨hq1, hE1, hF1, hM⟩ := hspec
        obtain ⟨n, outs, sEnd, hrun, hdone, hok, herr⟩ := ih s1 (by omega) hq1
        refine ⟨n + 1, .ok e :: outs, sEnd, ?_, hdone, ?_, ?_⟩
        · simp only [runScan, hstep, hrun]
        · rw [okPathsOf_cons_ok, hok, ← hE1, ← Multiset.singleton_add, add_comm]
        · rw [errCount_cons_ok, herr, hF1]
      | error c =>
        obtain ⟨hq1, hE1, hF1, hM⟩ := hspec
        obtain ⟨n, outs, sEnd, hrun, hdone, hok, herr⟩ := ih s1 (by omega) hq1
        refine ⟨n + 1, .error c :: outs, sEnd, ?_, hdone, ?_, ?_⟩
        · simp only [runScan, hstep, hrun]
        · rw [okPathsOf_cons_err, hok, hE1]
        · rw [errCount_cons_err, herr, hF1]

/-- The freshly configured scanner's observable fields. -/
theorem initState_fields (ord : Order) (bs : Nat) (f : Option (FsPath → FileType → Bool))
    (mounts : List MountEntry) (rft : FileType) (rino : Nat) :
    (initState ord bs f mounts rft rino).unordered = [⟨[], rft, rino, []⟩] ∧
    (initState ord bs f mounts rft rino).phy_sorted = [] ∧
    (initState ord bs f mounts rft rino).current_dir = none ∧
    (initState ord bs f mounts rft rino).inode_ordered = [] ∧
    (initState ord bs f mounts rft rino).phy_sorted_leaves = [] ∧
    (initState ord bs f mounts rft rino).phase = .DirWalk ∧
    (initState ord bs f mounts rft rino).order = ord ∧
    (initState ord bs f mounts rft rino).prefilter = f := by
  cases f <;>
    simp [initState, ToScan.new, ToScan.set_order, ToScan.set_batchsize,
      ToScan.set_prefilter, ToScan.prefetch_dirs, ToScan.add]

/-! ### Claim theorems -/

/-- Claim C5: `add(entry, Some(k))` stores the new entry at key `k`; if
`phy_sorted` already held an occupant at `k`, the displaced prior
occupant is appended to the back of `unordered`, while a free `k`
leaves `unordered` unchanged; `add(entry, None)` appends the entry to
the back of `unordered` and leaves `phy_sorted` unchanged. -/
theorem C5_add_spec (s : ToScan) (e : Entry) (hs : KeysSorted s.phy_sorted) :
    (∀ k old, lookupKey k s.phy_sorted = some old →
      lookupKey k (s.add e (some k)).phy_sorted = some e ∧
      (∀ k2, k2 ≠ k → lookupKey k2 (s.add e (some k)).phy_sorted = lookupKey k2 s.phy_sorted) ∧
      (s.add e (some k)).unordered = s.unordered ++ [old]) ∧
    (∀ k, lookupKey k s.phy_sorted = none →
      lookupKey k (s.add e (some k)).phy_sorted = some e ∧
      (∀ k2, k2 ≠ k → lookupKey k2 (s.add e (some k)).phy_sorted = lookupKey k2 s.phy_sorted) ∧
      (s.add e (some k)).unordered = s.unordered) ∧
    ((s.add e none).unordered = s.unordered ++ [e] ∧
     (s.add e none).phy_sorted = s.phy_sorted) := by
  refine ⟨?_, ?_, rfl, rfl⟩
  · intro k old hl
    have h := btInsert_spec k e s.phy_sorted hs
    have h2 : (btInsert k e s.phy_sorted).2 = some old := h.1.trans hl
    have hadd : s.add e (some k) =
        { s with phy_sorted := (btInsert k e s.phy_sorted).1
                 unordered := s.unordered ++ [old] } := by
      simp only [ToScan.add, h2]
    rw [hadd]
    exact ⟨h.2.1, fun k2 hk2 => h.2.2 k2 hk2, rfl⟩
  · intro k hl
    have h := btInsert_spec k e s.phy_sorted hs
    have h2 : (btInsert k e s.phy_sorted).2 = none := h.1.trans hl
    have hadd : s.add e (some k) =
        { s with phy_sorted := (btInsert k e s.phy_sorted).1 } := by
      simp only [ToScan.add, h2]
    rw [hadd]
    exact ⟨h.2.1, fun k2 hk2 => h.2.2 k2 hk2, rfl⟩

/-- Witness for C5 at a concrete state. -/
theorem C5_add_spec_witness :
    (stateC5.add entQ3 none).unordered = stateC5.unordered ++ [entQ3] ∧
    (stateC5.add entQ3 none).phy_sorted = stateC5.phy_sorted :=
  (C5_add_spec stateC5 entQ3 (by decide)).2.2

/-- Claim C4: `get_next` pops the front of `unordered` when non-empty;
otherwise it removes and returns the entry stored at the smallest
`phy_sorted` key `≥ cursor`, setting the cursor to that key; otherwise
it returns none, whereupon the iterator resets the cursor to 0 and
retries — which succeeds whenever `phy_sorted` is non-empty, so every
queued entry is eventually dequeued. -/
theorem C4_get_next_spec (fs : FS) (s : ToScan)
    (hs : KeysSorted s.phy_sorted)
    (hb : ∀ kv ∈ s.phy_sorted, kv.1 ≤ U64MAX) :
    (∀ e rest, s.unordered = e :: rest →
      (s.get_next fs).1 = some e ∧
      (s.get_next fs).2.unordered = rest ∧
      (s.get_next fs).2.phy_sorted = s.phy_sorted ∧
      (s.get_next fs).2.cursor = s.cursor) ∧
    (∀ kv, s.unordered = [] → findGE s.cursor s.phy_sorted = some kv →
      (s.get_next fs).1 = some kv.2 ∧
      (s.get_next fs).2.cursor = kv.1 ∧
      (s.get_next fs).2.phy_sorted = eraseKey kv.1 s.phy_sorted ∧
      kv ∈ s.phy_sorted ∧ s.cursor ≤ kv.1 ∧
      (∀ kv2 ∈ s.phy_sorted, s.cursor ≤ kv2.1 → kv.1 ≤ kv2.1)) ∧
    (s.unordered = [] → findGE s.cursor s.phy_sorted = none →
      (s.get_next fs).1 = none ∧
      (s.get_next fs).2.unordered = s.unordered ∧
      (s.get_next fs).2.phy_sorted = s.phy_sorted ∧
      (s.get_next fs).2.cursor = s.cursor) ∧
    (s.phase = .DirWalk → ¬ s.is_empty → s.current_dir = none → s.unordered = [] →
      findGE s.cursor s.phy_sorted = none →
      (loopStep fs s).1 = .cont ∧
      (loopStep fs s).2.cursor = 0 ∧
      (loopStep fs s).2.phy_sorted = s.phy_sorted ∧
      (loopStep fs s).2.unordered = s.unordered) ∧
    (s.phy_sorted ≠ [] → ∃ kv, findGE 0 s.phy_sorted = some kv ∧ kv ∈ s.phy_sorted) := by
  obtain ⟨hp1, hp2, hp3, hp4, hp5, hp6, hp7, hp8, hp9, hp10, hp11⟩ := prefetch_state s fs
  have hgnone : s.unordered = [] → findGE s.cursor s.phy_sorted = none →
      s.get_next fs = (none, (s.prefetch fs).1) := by
    intro hu hf
    have hu0 : ((s.prefetch fs).1).unordered = [] := by rw [hp3, hu]
    have hf0 : findGE ((s.prefetch fs).1).cursor ((s.prefetch fs).1).phy_sorted = none := by
      rw [hp4, hp1, hf]
    simp only [ToScan.get_next, hu0, hf0]
  refine ⟨?_, ?_, ?_, ?_, ?_⟩
  · intro e rest hu
    have hu0 : ((s.prefetch fs).1).unordered = e :: rest := by rw [hp3, hu]
    have hgn : s.get_next fs = (some e,
        ToScan.remove_prefetch { (s.prefetch fs).1 with unordered := rest } (some e)) := by
      simp only [ToScan.get_next, hu0]
    obtain ⟨hr1, hr2, hr3, hr4, hr5, hr6, hr7, hr8, hr9, hr10, hr11⟩ :=
      remove_prefetch_state { (s.prefetch fs).1 with unordered := rest } (some e)
    refine ⟨?_, ?_, ?_, ?_⟩
    · rw [hgn]
    · rw [hgn]
      exact hr3
    · rw [hgn, hr1]
      exact hp1
    · rw [hgn, hr4]
      exact hp4
  · intro kv hu hf
    have hu0 : ((s.prefetch fs).1).unordered = [] := by rw [hp3, hu]
    have hf0 : findGE ((s.prefetch fs).1).cursor ((s.prefetch fs).1).phy_sorted = some kv := by
      rw [hp4, hp1, hf]
    have hgn : s.get_next fs = (some kv.2,
        ToScan.remove_prefetch
          { (s.prefetch fs).1 with
              unordered := []
              cursor := kv.1
              phy_sorted := eraseKey kv.1 ((s.prefetch fs).1).phy_sorted } (some kv.2)) := by
      simp only [ToScan.get_next, hu0, hf0]
    obtain ⟨hr1, hr2, hr3, hr4, hr5, hr6, hr7, hr8, hr9, hr10, hr11⟩ :=
      remove_prefetch_state
        { (s.prefetch fs).1 with
            unordered := []
            cursor := kv.1
            phy_sorted := eraseKey kv.1 ((s.prefetch fs).1).phy_sorted } (some kv.2)
    have hmem := findGE_some hf
    refine ⟨?_, ?_, ?_, hmem.1, hmem.2.1, findGE_min hs hb hf⟩
    · rw [hgn]
    · rw [hgn]
      exact hr4
    · rw [hgn, hr1]
      show eraseKey kv.1 ((s.prefetch fs).1).phy_sorted = eraseKey kv.1 s.phy_sorted
      rw [hp1]
  · intro hu hf
    rw [hgnone hu hf]
    exact ⟨rfl, hp3, hp1, hp4⟩
  · intro hph hne hcur hu hf
    have hcond : s.phase = Phase.DirWalk ∧ ¬ s.is_empty := ⟨hph, hne⟩
    have hstep : loopStep fs s = (.cont, { (s.prefetch fs).1 with cursor := 0 }) := by
      simp only [loopStep, if_pos hcond, dirWalkStep, hcur, hgnone hu hf]
    rw [hstep]
    exact ⟨rfl, rfl, hp1, hp3⟩
  · intro hne
    obtain ⟨kv1, rest, hm⟩ := List.exists_cons_of_ne_nil hne
    have hmem : kv1 ∈ s.phy_sorted := by
      rw [hm]
      exact List.mem_cons_self kv1 rest
    refine ⟨kv1, ?_, hmem⟩
    rw [hm]
    simp only [findGE]
    rw [if_pos ⟨Nat.zero_le _, hb kv1 hmem⟩]

/-- Witness for C4: at `stateC4` (cursor 200, keys 100 and 300) the
smallest key at least the cursor is 300. -/
theorem C4_get_next_spec_witness :
    (stateC4.get_next fsFail).1 = some entQ2 ∧
    (stateC4.get_next fsFail).2.cursor = 300 :=
  have h := (C4_get_next_spec fsFail stateC4 (by decide) (by decide)).2.1
    (300, entQ2) rfl (by decide)
  ⟨h.1, h.2.1⟩

/-- Claim C9: `add_root` appends exactly one entry — carrying the
stat'd inode and file type, no position, empty extents — to the back of
`unordered` when `stat` succeeds; when `stat` fails it returns that I/O
error synchronously and leaves the scanner unchanged, so a scanner
whose only `add_root` call failed yields `None` from its first
`next()`. -/
theorem C9_add_root_spec (fs : FS) (s : ToScan) (p : FsPath) :
    (∀ ino ft, fs.stat p = .ok (ino, ft) →
      s.add_root fs p =
        ({ s with unordered := s.unordered ++ [⟨p, ft, ino, []⟩] }, .ok ())) ∧
    (∀ er, fs.stat p = .error er → s.add_root fs p = (s, .error er)) ∧
    (∀ er, fs.stat p = .error er →
      ∀ fuel, nextImpl fs (fuel + 1) ((ToScan.new).add_root fs p).1 =
        (.exhausted, ToScan.new)) := by
  refine ⟨?_, ?_, ?_⟩
  · intro ino ft h
    simp only [ToScan.add_root, h, ToScan.add]
  · intro er h
    simp only [ToScan.add_root, h]
  · intro er h fuel
    have h2 : ((ToScan.new).add_root fs p).1 = ToScan.new := by
      simp only [ToScan.add_root, h]
    rw [h2]
    rfl

/-- Witness for C9 on a concrete filesystem: `stat ["r"]` succeeds,
`stat ["bad"]` fails with error code 2. -/
theorem C9_add_root_spec_witness :
    ToScan.new.add_root fs10 ["r"] =
      ({ ToScan.new with unordered := [⟨["r"], ⟨true⟩, 1, []⟩] }, .ok ()) ∧
    ToScan.new.add_root fs10 ["bad"] = (ToScan.new, .error 2) ∧
    nextImpl fs10 1 (ToScan.new.add_root fs10 ["bad"]).1 = (.exhausted, ToScan.new) :=
  ⟨(C9_add_root_spec fs10 ToScan.new ["r"]).1 1 ⟨true⟩ rfl,
   (C9_add_root_spec fs10 ToScan.new ["bad"]).2.1 2 rfl,
   (C9_add_root_spec fs10 ToScan.new ["bad"]).2.2 2 rfl 0⟩

/-- Claim C6 (amended): with `mountpoints` non-empty, the prefetcher
skips the invocation entirely — state unchanged, no advisories — when
`remaining = LIMIT − Σ prefetched.values` is *strictly below*
`LIMIT/2`.  (At exactly `LIMIT/2` it proceeds; see
`C6_counterexample`.) -/
theorem C6_amended_hysteresis (fs : FS) (s : ToScan)
    (hm : s.mountpoints ≠ [])
    (hrem : LIMIT - (s.prefetched.map (fun pr => pr.2)).sum < LIMIT / 2) :
    s.prefetch fs = (s, []) := by
  have h1 : ¬ s.mountpoints = [] := hm
  simp only [ToScan.prefetch, if_neg h1, if_pos hrem]

/-- Witness for the amended C6. -/
theorem C6_amended_hysteresis_witness :
    ({ stateC6 with prefetched := [(["x"], 4194305)] } : ToScan).prefetch fsFail =
      ({ stateC6 with prefetched := [(["x"], 4194305)] }, []) :=
  C6_amended_hysteresis fsFail _ (by decide) (by decide)

/-- Counterexample to C6 as stated: with exactly half the budget
consumed (`remaining = LIMIT/2`), the invocation is *not* skipped —
`prefetched` changes (the source uses strict `<`, not `≤`). -/
theorem C6_counterexample :
    LIMIT - ((stateC6.prefetched.map (fun pr => pr.2)).sum) = LIMIT / 2 ∧
    (stateC6.prefetch fsFail).1.prefetched ≠ stateC6.prefetched := by
  decide

/-- Claim C7 (amended): on consuming an entry present in `prefetched`
(a hit) the entry is removed and the cap becomes
`min(2048, 2·cap + 1)`; on a miss the cap resets to 2 and `prefetched`
is cleared; `prefetch_cap ≤ 2048` is preserved by every operation that
changes it (and is 0 at `new()`), but the lower bound 2 of the original
claim does not hold (see `C7_counterexample`). -/
theorem C7_amended_cap (s : ToScan) (e : Entry) (fs : FS)
    (hcap : s.prefetch_cap ≤ 2048) :
    ((lookupAssoc e.path s.prefetched).isSome →
      (s.remove_prefetch (some e)).prefetched = eraseAssoc e.path s.prefetched ∧
      (s.remove_prefetch (some e)).prefetch_cap = min 2048 (s.prefetch_cap * 2 + 1)) ∧
    (lookupAssoc e.path s.prefetched = none →
      (s.remove_prefetch (some e)).prefetch_cap = 2 ∧
      (s.remove_prefetch (some e)).prefetched = []) ∧
    (∀ oe, (s.remove_prefetch oe).prefetch_cap ≤ 2048) ∧
    ToScan.new.prefetch_cap ≤ 2048 ∧
    ((s.prefetch fs).1).prefetch_cap = s.prefetch_cap := by
  refine ⟨?_, ?_, ?_, by decide, (prefetch_state s fs).2.2.2.2.2.2.2.2.2.2⟩
  · intro hhit
    constructor
    · simp only [ToScan.remove_prefetch, if_pos hhit]
    · simp only [ToScan.remove_prefetch, if_pos hhit]
  · intro hmiss
    have hnot : ¬ (lookupAssoc e.path s.prefetched).isSome = true := by
      rw [hmiss]
      simp
    constructor
    · simp only [ToScan.remove_prefetch, if_neg hnot]
    · simp only [ToScan.remove_prefetch, if_neg hnot]
  · intro oe
    cases oe with
    | none => exact hcap
    | some e2 =>
      simp only [ToScan.remove_prefetch]
      split
      · exact min_le_left _ _
      · show (2 : Nat) ≤ 2048
        omega

/-- Witness for the amended C7. -/
theorem C7_amended_cap_witness :
    (stateC6.remove_prefetch (some ⟨["x"], ⟨false⟩, 9, []⟩)).prefetched = [] ∧
    (stateC6.remove_prefetch (some ⟨["x"], ⟨false⟩, 9, []⟩)).prefetch_cap =
      min 2048 (stateC6.prefetch_cap * 2 + 1) :=
  have h := (C7_amended_cap stateC6 ⟨["x"], ⟨false⟩, 9, []⟩ fsFail (by decide)).1 (by decide)
  ⟨by rw [h.1]; decide, h.2⟩

/-- Counterexample to C7 as stated: after one public `next()` call from
a reachable state (`new()` + mount snapshot + two `add`ed roots),
`prefetched` is non-empty while `prefetch_cap = 1 < 2` — the claimed
invariant `2 ≤ prefetch_cap` fails. -/
theorem C7_counterexample :
    (nextImpl fsFail 1 stateC7).2.prefetched ≠ [] ∧
    (nextImpl fsFail 1 stateC7).2.prefetch_cap < 2 := by
  decide

/-- Claim C2: for `Order::Content` the source sorts
`phy_sorted_leaves` ascending by offset and then pops from the *back*,
so a batch with first-extent offsets 9000, 3000, 6000 is emitted in
order 9000, 6000, 3000 — *descending*, not the claimed non-decreasing
order.  (The enum documentation says Content order serves sequential
reads over multiple files, which requires ascending emission; compare
the `Order::Inode` arm, which reverse-sorts precisely so that `pop()`
yields ascending.) -/
theorem C2_content_order_descending :
    (runScan fsS2 4 stateS2).1 = [.ok entA, .ok entC, .ok entB] ∧
    (runScan fsS2 4 stateS2).1.map
        (fun x => match x with
          | .ok e => contentOffset fsS2 e.path
          | .error _ => 0) = [9000, 6000, 3000] ∧
    ¬ ((runScan fsS2 4 stateS2).1.map
        (fun x => match x with
          | .ok e => contentOffset fsS2 e.path
          | .error _ => 0)).Pairwise (fun a b => a ≤ b) := by
  refine ⟨by decide, by decide, ?_⟩
  intro h
  have h2 : ((runScan fsS2 4 stateS2).1.map
      (fun x => match x with
        | .ok e => contentOffset fsS2 e.path
        | .error _ => 0)) = [9000, 6000, 3000] := by decide
  rw [h2] at h
  have := (List.pairwise_cons.mp h).1 6000 (List.mem_cons_self _ _)
  omega

/-- Claim C10 (amended): starting from `new()`, the public operations
`add`, `add_root`, `set_batchsize`, `set_prefilter`, `prefetch_dirs`
and `next` preserve the safety invariant, under which `next` never
panics: the batch-threshold assertion, the non-empty-buffer assertions,
and the `panic!("illegal state")` arm are unreachable.  `set_order` is
safe when called before iteration has begun (phase `DirWalk`, empty
batch buffer); a `set_order` call while a batch is pending can reach
the panic (see `C10_counterexample`). -/
theorem C10_amended_no_panic :
    (∀ fs fuel s, SafeInv s →
      (nextImpl fs fuel s).1 ≠ .crashed ∧ SafeInv (nextImpl fs fuel s).2) ∧
    SafeInv ToScan.new ∧
    (∀ s (e : Entry) pos, SafeInv s → SafeInv (s.add e pos)) ∧
    (∀ s fs p, SafeInv s → SafeInv (s.add_root fs p).1) ∧
    (∀ s n, SafeInv s → SafeInv (s.set_batchsize n)) ∧
    (∀ s f, SafeInv s → SafeInv (s.set_prefilter f)) ∧
    (∀ s v m, SafeInv s → SafeInv (s.prefetch_dirs v m)) ∧
    (∀ s o, s.phase = .DirWalk → s.inode_ordered = [] → SafeInv s →
      SafeInv (s.set_order o)) := by
  have hadd : ∀ (s : ToScan) (e : Entry) pos, SafeInv s → SafeInv (s.add e pos) := by
    intro s e pos h
    obtain ⟨a1, a2, a3, a4, a5, a6, a7, a8, a9, a10, a11⟩ := add_state s e pos
    exact safeInv_transport s _ a6 a7 a4 a1 h
  refine ⟨fun fs fuel s h => nextImpl_safe fs fuel s h, by decide, hadd, ?_, ?_, ?_, ?_, ?_⟩
  · intro s fs p h
    rcases hstat : fs.stat p with er | m
    · simp only [ToScan.add_root, hstat]
      exact h
    · simp only [ToScan.add_root, hstat]
      exact hadd s _ none h
  · intro s n h
    exact safeInv_transport s _ rfl rfl rfl rfl h
  · intro s f h
    exact safeInv_transport s _ rfl rfl rfl rfl h
  · intro s v m h
    simp only [ToScan.prefetch_dirs]
    split
    · exact safeInv_transport s _ rfl rfl rfl rfl h
    · split
      · exact safeInv_transport s _ rfl rfl rfl rfl h
      · exact safeInv_transport s _ rfl rfl rfl rfl h
  · intro s o hph hbuf h
    refine ⟨?_, ?_, ?_⟩
    · intro hc
      exact absurd (hph.symm.trans (show s.phase = Phase.InodePass from hc)) (by decide)
    · intro hc
      exact absurd (hph.symm.trans (show s.phase = Phase.ContentPass from hc)) (by decide)
    · intro _
      exact ⟨hph, hbuf⟩

/-- Witness for the amended C10. -/
theorem C10_amended_no_panic_witness :
    SafeInv ToScan.new ∧ (nextImpl fs10 1 ToScan.new).1 ≠ .crashed :=
  ⟨C10_amended_no_panic.2.1,
   (C10_amended_no_panic.1 fs10 1 ToScan.new (by decide)).1⟩

/-- Claim C8 (amended): after sorting a bucket's extents by physical
offset, the coalescing loop merges consecutive extents into a run while
the next extent's `physical` does not exceed the *current* run end,
where the end is overwritten by each merged extent's
`physical + length` (not a maximum); exactly one advisory
`(offset, end − offset)` is produced per run, whose range starts at the
run's first extent, ends at the *last merged* extent's end, and
contains every merged extent's starting offset — but need not cover the
full byte range of an extent wholly contained inside an earlier one
(see `C8_counterexample`).  Stated for the head run of a sorted list;
by the first conjunct the remaining runs are the head runs of the
suffixes. -/
theorem C8_amended_coalesce (exts : List FileExtent) (x : FileExtent) (xs : List FileExtent)
    (hsort : sortByKey (fun y => y.physical) exts = x :: xs) :
    coalesce (sortByKey (fun y => y.physical) exts) =
      (x.physical,
        chainEnd (x.physical + x.length) (chunkRun (x.physical + x.length) xs).1)
        :: coalesce ((chunkRun (x.physical + x.length) xs).2) ∧
    (x :: (chunkRun (x.physical + x.length) xs).1) ++
        (chunkRun (x.physical + x.length) xs).2
      = sortByKey (fun y => y.physical) exts ∧
    (∀ y ∈ x :: (chunkRun (x.physical + x.length) xs).1,
      x.physical ≤ y.physical ∧
      y.physical ≤ chainEnd (x.physical + x.length)
        (chunkRun (x.physical + x.length) xs).1) ∧
    (∃ z, (x :: (chunkRun (x.physical + x.length) xs).1).getLast? = some z ∧
      chainEnd (x.physical + x.length) (chunkRun (x.physical + x.length) xs).1 =
        z.physical + z.length) := by
  have hpw : (x :: xs).Pairwise (fun a b => a.physical ≤ b.physical) := by
    rw [← hsort]
    exact sortByKey_pairwise _ _
  have happ : (x :: (chunkRun (x.physical + x.length) xs).1) ++
      (chunkRun (x.physical + x.length) xs).2 = x :: xs := by
    rw [List.cons_append, chunkRun_append]
  have hrun_sub : (x :: (chunkRun (x.physical + x.length) xs).1).Sublist (x :: xs) := by
    rw [← happ]
    exact List.sublist_append_left _ _
  have hrun_pw := List.Pairwise.sublist hrun_sub hpw
  have hlast : ∃ z, (x :: (chunkRun (x.physical + x.length) xs).1).getLast? = some z ∧
      chainEnd (x.physical + x.length) (chunkRun (x.physical + x.length) xs).1 =
        z.physical + z.length := by
    rcases hc : (chunkRun (x.physical + x.length) xs).1 with _ | ⟨c0, cs⟩
    · exact ⟨x, rfl, rfl⟩
    · have hz : ∃ z, (c0 :: cs).getLast? = some z := by
        cases hgl : (c0 :: cs).getLast? with
        | none => exact absurd (List.getLast?_eq_none_iff.mp hgl) (by simp)
        | some z => exact ⟨z, rfl⟩
      obtain ⟨z, hz⟩ := hz
      refine ⟨z, ?_, ?_⟩
      · rw [List.getLast?_cons_cons, hz]
      · rw [chainEnd_last, hz]
  have hsub1 : ((chunkRun (x.physical + x.length) xs).1).Sublist xs :=
    chunkRun_sublist xs (x.physical + x.length)
  refine ⟨?_, by rw [hsort]; exact happ, ?_, hlast⟩
  · rw [hsort]
    show coalesceAux x.physical (x.physical + x.length) xs = _
    exact coalesceAux_chunk xs x.physical (x.physical + x.length)
  · intro y hy
    obtain ⟨z, hz1, hz2⟩ := hlast
    constructor
    · rcases List.mem_cons.mp hy with h1 | h1
      · rw [h1]
      · exact (List.pairwise_cons.mp hpw).1 y (List.Sublist.mem h1 hsub1)
    · have hle := pairwise_le_getLast _ hrun_pw z hz1 y hy
      omega

/-- Witness for the amended C8 at the extents `(0,100)`, `(10,5)`. -/
theorem C8_amended_coalesce_witness :
    coalesce (sortByKey (fun y => y.physical) [⟨0, 100⟩, ⟨10, 5⟩]) =
      (FileExtent.physical ⟨0, 100⟩,
        chainEnd (FileExtent.physical ⟨0, 100⟩ + FileExtent.length ⟨0, 100⟩)
          (chunkRun (FileExtent.physical ⟨0, 100⟩ + FileExtent.length ⟨0, 100⟩)
            [⟨10, 5⟩]).1)
        :: coalesce ((chunkRun (FileExtent.physical ⟨0, 100⟩ +
            FileExtent.length ⟨0, 100⟩) [⟨10, 5⟩]).2) :=
  (C8_amended_coalesce [⟨0, 100⟩, ⟨10, 5⟩] ⟨0, 100⟩ [⟨10, 5⟩] (by decide)).1

/-- Counterexample to C8 as stated: with extents `(0,100)` and `(10,5)`
— the second wholly contained in the first — the run end is overwritten
to 15, the single advisory is `(0, 15)`, and it does not cover the
merged extent `(0,100)`. -/
theorem C8_counterexample :
    (stateC8.prefetch fsFail).2 = [("dev0", 0, 15)] ∧
    coalesce (sortByKey (fun y => y.physical) [⟨0, 100⟩, ⟨10, 5⟩]) = [(0, 15)] ∧
    ¬ (0 + 100 ≤ 15) := by
  decide

/-- Claim C3: for `Order::Inode`, at the `DirWalk → InodePass` switch
the batch buffer is sorted by `u64::MAX - ino` — i.e. inode-descending
— and draining the batch (`pop()` from the back on each `next()`) emits
entries with non-decreasing inode numbers; the last pop returns the
phase to `DirWalk`. -/
theorem C3_inode_batch_monotone (fs : FS) (s : ToScan) (l : List Entry)
    (hphase : s.phase = .InodePass) (hord : s.order = .Inode)
    (hbuf : s.inode_ordered = sortByKey (fun d => U64MAX - d.ino) l)
    (hne : l ≠ []) (hbound : ∀ e ∈ l, e.ino ≤ U64MAX) :
    (runScan fs s.inode_ordered.length s).1 = s.inode_ordered.reverse.map Except.ok ∧
    ((runScan fs s.inode_ordered.length s).1.map inoOf).Pairwise (· ≤ ·) ∧
    (runScan fs s.inode_ordered.length s).2.phase = .DirWalk ∧
    s.inode_ordered.Pairwise (fun a b => b.ino ≤ a.ino) := by
  have hne2 : s.inode_ordered ≠ [] := by
    rw [hbuf, Ne, sortByKey_eq_nil_iff]
    exact hne
  have hdrain := inode_drain fs s.inode_ordered.length s hphase hord rfl hne2
  have hboundm : ∀ e ∈ s.inode_ordered, e.ino ≤ U64MAX := by
    intro e he
    rw [hbuf] at he
    exact hbound e ((sortByKey_perm _ l).mem_iff.mp he)
  have hkey : s.inode_ordered.Pairwise
      (fun a b => U64MAX - a.ino ≤ U64MAX - b.ino) := by
    rw [hbuf]
    exact sortByKey_pairwise _ l
  have hdesc : s.inode_ordered.Pairwise (fun a b => b.ino ≤ a.ino) := by
    refine List.Pairwise.imp_of_mem ?_ hkey
    intro a b ha hb hab
    have h1 := hboundm a ha
    have h2 := hboundm b hb
    omega
  refine ⟨by rw [hdrain], ?_, by rw [hdrain], hdesc⟩
  rw [hdrain]
  show ((s.inode_ordered.reverse.map Except.ok).map inoOf).Pairwise (· ≤ ·)
  rw [List.map_map, List.pairwise_map, List.pairwise_reverse]
  exact hdesc

/-- Witness for C3: scenario S1 (inodes 100, 50, 75). -/
theorem C3_inode_batch_monotone_witness :
    (runScan fsFail stateS1.inode_ordered.length stateS1).1 =
      stateS1.inode_ordered.reverse.map Except.ok ∧
    (runScan fsFail stateS1.inode_ordered.length stateS1).2.phase = .DirWalk :=
  have h := C3_inode_batch_monotone fsFail stateS1 [entI100, entI50, entI75]
    rfl rfl rfl (by decide) (by decide)
  ⟨h.1, h.2.2.1⟩

/-- Counterexample for C10: the public-operation sequence `new()`,
`set_order(Inode)`, `add(root)`, one `next()` (which buffers two files
and pops one), `set_order(Dentries)`, `next()` reaches the
`panic!("illegal state")` arm. -/
theorem C10_counterexample :
    (nextImpl fs10 10 state10).1 = .yielded (.ok ⟨["r", "b"], ⟨false⟩, 3, []⟩) ∧
    (nextImpl fs10 10 state10).2.inode_ordered ≠ [] ∧
    (nextImpl fs10 1 (((nextImpl fs10 10 state10).2).set_order .Dentries)).1 = .crashed := by
  decide

/-- Claim C1: for every filesystem tree (well-formed: sibling names are
distinct) reachable from the added root, any order, any batch size, any
optional prefilter, any mount table and any (`u64`-bounded) extent-map
oracle, iterating the scanner to exhaustion terminates at a `done`
fixpoint and yields exactly one `Ok` per reachable directory entry that
passes the prefilter — the output `Ok`-path multiset equals the tree's
emission multiset, which is duplicate-free, so no entry is yielded
twice — plus exactly one `Err` per I/O failure encountered. -/
theorem C1_scanner_complete (t : FNode) (hwf : wfNode t = true)
    (extM : FsPath → Except IoErr (List FileExtent)) (hext : ∀ p2, extOk (extM p2))
    (devs : String → Bool) (ord : Order) (bs : Nat)
    (f : Option (FsPath → FileType → Bool)) (mounts : List MountEntry)
    (rft : FileType) (rino : Nat) :
    ∃ n outs sEnd,
      runScan (fsOfTree t extM devs) n (initState ord bs f mounts rft rino) = (outs, sEnd) ∧
      loopStep (fsOfTree t extM devs) sEnd = (.done, sEnd) ∧
      okPathsOf outs = nodeEmits f t [] ∧
      (okPathsOf outs).Nodup ∧
      errCount outs = nodeErrsQ t := by
  obtain ⟨h1, h2, h3, h4, h5, h6, h7, h8⟩ := initState_fields ord bs f mounts rft rino
  have hqm : qMset (initState ord bs f mounts rft rino) =
      {(⟨[], rft, rino, []⟩ : Entry)} := by
    simp [qMset, h1, h2]
  have hq : QInv t f (initState ord bs f mounts rft rino) := by
    refine ⟨h8, ?_, ?_, ?_, ?_, ?_⟩
    · intro e he
      rw [hqm] at he
      rw [Multiset.mem_singleton.mp he]
      simp [lookupNode_nil]
    · simp [h3]
    · rw [h2]
      exact List.Pairwise.nil
    · rw [h2]
      intro kv hkv
      simp at hkv
    · exact safeInv_of_dirwalk _ h6 (fun _ => h4)
  have hE : EState t f (initState ord bs f mounts rft rino) = nodeEmits f t [] := by
    simp only [EState, hqm, h3, h4, h5, curEmits]
    simp [entryEmits, lookupNode_nil]
  have hF : FState t (initState ord bs f mounts rft rino) = nodeErrsQ t := by
    simp only [FState, hqm, h3, curErrs]
    simp [entryErrs, lookupNode_nil]
  obtain ⟨n, outs, sEnd, hrun, hdone, hok, herr⟩ :=
    runScan_exists t hwf f extM devs hext
      (MState t (initState ord bs f mounts rft rino)) _ (le_refl _) hq
  refine ⟨n, outs, sEnd, hrun, hdone, ?_, ?_, ?_⟩
  · rw [hok, hE]
  · rw [hok, hE]
    exact nodeEmits_nodup f t [] hwf
  · rw [herr, hF]

/-- Witness for C1 at the concrete tree `tWit` (a file, a sub-directory
with an iteration error and a file, a failing `file_type()`, a failing
`read_dir`), order `Inode`, batch size 2, no prefilter. -/
theorem C1_scanner_complete_witness :
    ∃ n outs sEnd,
      runScan (fsOfTree tWit (fun _ => .error 3) (fun _ => false)) n
        (initState .Inode 2 none [] ⟨true⟩ 1) = (outs, sEnd) ∧
      loopStep (fsOfTree tWit (fun _ => .error 3) (fun _ => false)) sEnd = (.done, sEnd) ∧
      okPathsOf outs = nodeEmits none tWit [] ∧
      (okPathsOf outs).Nodup ∧
      errCount outs = nodeErrsQ tWit :=
  C1_scanner_complete tWit (by decide) (fun _ => .error 3) (fun _ => trivial)
    (fun _ => false) .Inode 2 none [] ⟨true⟩ 1

end PlatterWalk
